import Mathlib

/-
Verification of the xstate statechart core (packages/core/src/StateNode.ts and
packages/core/src/nodeUtils.ts, plus the older revision files) against its
natural-language specification.

The embedding below translates the transition engine into Lean:

* `SV` is the recursive state value (a leaf name or a mapping), `SN` the state
  node tree, `MachineM` a built machine (the machine is consumed as an
  already-parsed configuration value, with transition targets resolved to
  absolute paths, as the source resolves them at construction time).
* Stateful JS code is modelled by explicit state passing; the engine functions
  return the produced `State` together with the (possibly mutated) input state.
* Recursion that the source implements by unbounded recursion or loops is
  modelled with an explicit fuel parameter (structural on `Nat`, so that every
  definition evaluates by `rfl`/`decide`); wrappers instantiate the fuel with
  `sizeOf`, which bounds every structural descent.
* Functions of this repository whose defining file is not present under src/
  (utils.ts, stateUtils.ts, actions.ts) are modelled from the spec; each such
  definition carries a doc comment starting with "Modelled from the spec:".
* Error paths that the source implements by throwing on malformed machine
  configurations (missing child keys, bad lookups) are modelled by junk values
  (empty lists / `none`); theorems about well-formed machines are unaffected.
* Fields of the source State object that no claim mentions (children actors,
  meta, activities map) are not modelled.
-/

/-- Extended context. The source treats it as an opaque record owned by the
engine; an integer is enough for every claim. -/
abbrev Ctx := Int

/-- An event: a tagged record with a `type` (the payload is not inspected by
any claim). The null event is the empty type and the wildcard is "*". -/
structure Event where
  etype : String
deriving DecidableEq, Repr

/-- A state path: the sequence of keys from the machine root to a node
(StateNode.path in the source). The root has path []. -/
abbrev SPath := List String

/-- Modelled from the spec: the action type tags from actionTypes.ts, which is
not under src/. Only their distinctness and the comparisons performed by
resolveTransition matter to the claims. -/
def assignT : String := "xstate.assign"

/-- Modelled from the spec: the raise action type tag (actionTypes.raise). -/
def raiseT : String := "xstate.raise"

/-- Modelled from the spec: the send action type tag (actionTypes.send). -/
def sendT : String := "xstate.send"

/-- Modelled from the spec: the log action type tag (actionTypes.log). -/
def logT : String := "xstate.log"

/-- Modelled from the spec: the pure action type tag (actionTypes.pure). -/
def pureT : String := "xstate.pure"

/-- Modelled from the spec: the activity start action tag (actionTypes.start). -/
def startT : String := "xstate.start"

/-- Modelled from the spec: the activity stop action tag (actionTypes.stop). -/
def stopT : String := "xstate.stop"

/-- Modelled from the spec: the internal update event type
(actionTypes.update), compared against the event name by resolveTransition
when computing the changed flag. Its exact string does not matter to the
theorems: they use this constant symbolically. -/
def updateT : String := "xstate.update"

/-- Modelled from the spec: the special send target SpecialTargets.Internal;
sends to it are appended to the raised-events queue. -/
def internalTgt : String := "#_internal"

/-- An action object (ActionObject in the source): a record with a `type` tag.
`assigner` is the context assigner used when the tag is the assign tag
(updateContext folds these), `eventTag` the type of the raised/sent event for
raise/send actions, `sendTo` the send target, and `pureGet` the descriptor
list produced by a pure action. Irrelevant fields carry defaults via
`mkAct`. -/
inductive ActionObj where
  | mk : String → (Ctx → Ctx) → String → Option String → (Ctx → List ActionObj) → ActionObj

/-- The `type` tag of an action object. -/
def ActionObj.atype : ActionObj → String
  | .mk t _ _ _ _ => t

/-- The context assigner of an (assign) action object. -/
def ActionObj.assigner : ActionObj → (Ctx → Ctx)
  | .mk _ f _ _ _ => f

/-- The event type carried by a raise/send action object. -/
def ActionObj.eventTag : ActionObj → String
  | .mk _ _ e _ _ => e

/-- The send target of a send action object. -/
def ActionObj.sendTo : ActionObj → Option String
  | .mk _ _ _ t _ => t

/-- The descriptor list produced by a pure action object. -/
def ActionObj.pureGet : ActionObj → (Ctx → List ActionObj)
  | .mk _ _ _ _ g => g

/-- A plain custom action with only a type tag. -/
def mkAct (t : String) : ActionObj := .mk t id "" none (fun _ => [])

/-- An assign action object carrying its assigner. -/
def mkAssign (f : Ctx → Ctx) : ActionObj := .mk assignT f "" none (fun _ => [])

/-- A raise action object carrying the raised event type. -/
def mkRaise (e : String) : ActionObj := .mk raiseT id e none (fun _ => [])

/-- A send action object carrying the sent event type and target. -/
def mkSend (e : String) (tgt : Option String) : ActionObj :=
  .mk sendT id e tgt (fun _ => [])

/-- A state value (StateValue in types.ts): either a leaf name or a mapping
from child key to state value. Equality of the mapping form is structural on
the association list, in the insertion order JS objects preserve. -/
inductive SV where
  | leaf : String → SV
  | node : List (String × SV) → SV

/-- Whether a state value is a string leaf (the `isString`/typeof dispatch of
the source). -/
def SV.isLeaf : SV → Bool
  | .leaf _ => true
  | .node _ => false

/-- Association-list lookup on the mapping form (`value[key]`). -/
def svGet (kvs : List (String × SV)) (k : String) : Option SV :=
  (kvs.find? (fun kv => kv.1 = k)).map (·.2)

/-- The keys of the mapping form (`keys(value)`). -/
def svKeys (kvs : List (String × SV)) : List String := kvs.map (·.1)

/-- The branch of a state value along a path: `value[k1][k2]...` navigation. -/
def valueBranch : SV → SPath → Option SV
  | v, [] => some v
  | .leaf _, _ :: _ => none
  | .node kvs, k :: rest =>
    match svGet kvs k with
    | some sub => valueBranch sub rest
    | none => none

/-- Builds the nested mapping form of a dotted path: the last segment stays a
leaf name, every earlier segment wraps one mapping level. -/
def pathToSV : List String → SV
  | [] => .node []
  | [k] => .leaf k
  | k :: rest => .node [(k, pathToSV rest)]

/-- JavaScript's string split on the "." delimiter, over the character list
(String.splitOn does not reduce in the kernel; this structural version does
and agrees with it on every input). -/
def splitDotAux : List Char → List Char → List String
  | [], acc => [String.mk acc.reverse]
  | ch :: rest, acc =>
    if ch = '.' then String.mk acc.reverse :: splitDotAux rest []
    else splitDotAux rest (ch :: acc)

/-- Splits a string on the "." delimiter. -/
def strSplitDot (s : String) : List String := splitDotAux s.data []

/-- Modelled from the spec: toStateValue from the early revision's utils.ts
(not under src/): accepts a string (dotted path), a nested mapping, or an
already-valid value; emits the normalized nested mapping form. A string is
split on the "." delimiter; a mapping is returned unchanged. -/
def toStateValueOld : SV → SV
  | .leaf s => pathToSV (strSplitDot s)
  | .node kvs => .node kvs

/-- Deep normalization of a state value: toStateValueOld applied at the top,
then recursively to every subvalue, so that no dotted string remains. Fueled;
the fuel is structural, every definition below evaluates by rfl. -/
def normF : Nat → SV → SV
  | 0, v => v
  | f + 1, v =>
    match toStateValueOld v with
    | .leaf s => .leaf s
    | .node kvs => .node (kvs.map (fun kv => (kv.1, normF f kv.2)))

/-- matchesState from the early revision (src/unnamed/part_003 lines 325-351):
converts both arguments with toStateValueOld, compares leaves by equality,
tests key membership when exactly one side is a leaf, and recurses over the
parent's keys when both are mappings. -/
def matchesF : Nat → SV → SV → Bool
  | 0, _, _ => false
  | f + 1, parentId, childId =>
    let p := toStateValueOld parentId
    let c := toStateValueOld childId
    match c with
    | .leaf cs =>
      match p with
      | .leaf ps => cs = ps
      | .node pkvs => cs ∈ svKeys pkvs
    | .node ckvs =>
      match p with
      | .leaf ps => ps ∈ svKeys ckvs
      | .node pkvs =>
        pkvs.all (fun kv =>
          match svGet ckvs kv.1 with
          | some cv => matchesF f kv.2 cv
          | none => false)

/-- The specification's prefix relation on normalized state values: a is a
prefix of v when every branch of a is an initial segment of the corresponding
branch of v. This is the refinement-side definition written from the spec's
words, to be compared with matchesState. -/
def svPrefixF : Nat → SV → SV → Bool
  | 0, _, _ => false
  | f + 1, a, v =>
    match a, v with
    | .leaf s, .leaf t => s = t
    | .leaf s, .node kvs => s ∈ svKeys kvs
    | .node _, .leaf _ => false
    | .node akvs, .node vkvs =>
      akvs.all (fun kv =>
        match svGet vkvs kv.1 with
        | some sub => svPrefixF f kv.2 sub
        | none => false)

/-- Modelled from the spec: toStatePaths/toPaths from utils.ts (not under
src/): produces the set of leaf paths of a state value; a key mapping to an
empty mapping terminates its path. -/
def toStatePathsF : Nat → SV → List SPath
  | 0, _ => []
  | _ + 1, .leaf s => [[s]]
  | f + 1, .node kvs =>
    kvs.flatMap (fun kv =>
      let ps := toStatePathsF f kv.2
      if ps.isEmpty then [[kv.1]] else ps.map (kv.1 :: ·))

/-- stateValuesEqual from State.ts (the modern State module, whose source
appears in the repository): strings compare by equality, a string never equals
a mapping, and mappings compare by equal key sets with recursively equal
subvalues. -/
def svEqF : Nat → SV → SV → Bool
  | 0, _, _ => false
  | f + 1, a, b =>
    match a, b with
    | .leaf s, .leaf t => s = t
    | .leaf _, .node _ => false
    | .node _, .leaf _ => false
    | .node akvs, .node bkvs =>
      akvs.length = bkvs.length &&
      akvs.all (fun kv =>
        match svGet bkvs kv.1 with
        | some bv => svEqF f kv.2 bv
        | none => false)

/-- The kind of a state node (StateNode.type in the source). -/
inductive NType where
  | atomic
  | compound
  | parallel
  | final
  | history
deriving DecidableEq, Repr

/-- Whether the event is a guard predicate applied to (context, event). The
source resolves named guards through the options registry at toGuard time;
guards here are the already-resolved predicates (no claim involves the
registry-miss error path). -/
abbrev GuardP := Ctx → Event → Bool

/-- A formatted transition (TransitionDefinition in the source): eventType
(the null event is "", the wildcard "*"), optional resolved target list
(absolute node paths, as resolveTarget computes at construction time;
`none` means the node does not transition on that event beyond running the
actions), optional guard, optional in-state predicate, internal flag, and
action list. -/
structure TransitionDef where
  eventType : String
  target : Option (List SPath)
  cond : Option GuardP
  inCond : Option SV
  internal : Bool
  actions : List ActionObj

/-- A state node tree (StateNode in the source): kind, initial child key,
deep-history flag (StateNode.history = 'deep'), the history node's default
target (the `target` getter), entry and exit action lists, activity ids,
formatted transitions, and children in declaration order. -/
inductive SN where
  | mk : NType → Option String → Bool → Option SV → List ActionObj → List ActionObj →
      List String → List TransitionDef → List (String × SN) → SN

/-- The kind of a node. -/
def SN.stype : SN → NType
  | .mk t _ _ _ _ _ _ _ _ => t

/-- The initial child key of a compound node. -/
def SN.initialKey : SN → Option String
  | .mk _ i _ _ _ _ _ _ _ => i

/-- Whether a history node is deep. -/
def SN.deepHist : SN → Bool
  | .mk _ _ d _ _ _ _ _ _ => d

/-- The default target of a history node (the `target` getter of
StateNode.ts). -/
def SN.histTarget : SN → Option SV
  | .mk _ _ _ t _ _ _ _ _ => t

/-- The entry action list of a node. -/
def SN.entryActs : SN → List ActionObj
  | .mk _ _ _ _ e _ _ _ _ => e

/-- The exit action list of a node. -/
def SN.exitActs : SN → List ActionObj
  | .mk _ _ _ _ _ x _ _ _ => x

/-- The activity ids of a node. -/
def SN.activityIds : SN → List String
  | .mk _ _ _ _ _ _ a _ _ => a

/-- The formatted transitions of a node. -/
def SN.transitions : SN → List TransitionDef
  | .mk _ _ _ _ _ _ _ ts _ => ts

/-- The children of a node, in declaration (document) order. -/
def SN.children : SN → List (String × SN)
  | .mk _ _ _ _ _ _ _ _ c => c

/-- Child lookup by key (getStateNode's happy path; the source throws on a
missing key, modelled by `none`). -/
def findChild (n : SN) (k : String) : Option SN :=
  (n.children.find? (fun kc => kc.1 = k)).map (·.2)

/-- The node at a path below a node. -/
def nodeAt : SN → SPath → Option SN
  | n, [] => some n
  | n, k :: rest =>
    match findChild n k with
    | some c => nodeAt c rest
    | none => none

/-- Whether a node is a leaf. Modelled from the spec: isLeafNode from
stateUtils.ts (not under src/); atomic (childless) nodes are leaves. -/
def isLeafN (n : SN) : Bool := n.children.isEmpty

/-- Whether a node is transient: it has a null-event transition
(StateNode._transient, computed by the constructor from the `on` config). -/
def isTransientN (n : SN) : Bool := n.transitions.any (fun t => t.eventType = "")

/-- A built machine: the machine key, the root node, the strict flag, the
initial context, and `bnd`, a fuel bound exceeding the height of the node
tree (a construction-time quantity, like the source's precomputed caches;
`heightLT` states that it is sufficient). -/
structure MachineM where
  key : String
  root : SN
  strict : Bool
  context : Ctx
  bnd : Nat

/-- The node of a machine at a path. -/
def mNodeAt (m : MachineM) (p : SPath) : Option SN := nodeAt m.root p

/-- Decides that the height of a tree is below the fuel: with this much fuel
every fueled structural descent of the tree runs to completion. -/
def heightLT : Nat → SN → Bool
  | 0, _ => false
  | f + 1, n => n.children.all (fun kc => heightLT f kc.2)

/-- Pre-order (document-order) traversal of the node paths, the order the
constructor's dfs assigns (StateNode.order). -/
def preOrderF : Nat → SN → SPath → List SPath
  | 0, _, _ => []
  | f + 1, n, base => base :: n.children.flatMap (fun kc => preOrderF f kc.2 (base ++ [kc.1]))

/-- The document-order index of a node path (its position in the pre-order
traversal; paths outside the machine get the list length). -/
def docOrder (m : MachineM) (p : SPath) : Nat :=
  (preOrderF m.bnd m.root []).indexOf p

/-- All prefixes of a path, from [] (the root) up to the path itself: the
ancestor chain including the node. -/
def ancChain (p : SPath) : List SPath :=
  (List.range (p.length + 1)).map (fun i => p.take i)

/-- Keeps the first occurrence of each element, like iterating a JS Set. -/
def dedupFirst {α : Type} [DecidableEq α] (l : List α) : List α :=
  l.foldl (fun acc a => if a ∈ acc then acc else acc ++ [a]) []

/-- The relative paths of the descendants that an active parallel node forces
to be active: every child of a parallel node, recursively for children that
are themselves parallel. -/
def forcedF : Nat → SN → List SPath
  | 0, _ => []
  | f + 1, n =>
    if n.stype = .parallel then
      n.children.flatMap (fun kc => [kc.1] :: (forcedF f kc.2).map (kc.1 :: ·))
    else []

/-- The forced descendants of the node at a path of the machine. -/
def forcedAt (m : MachineM) (p : SPath) : List SPath :=
  match mNodeAt m p with
  | some n => forcedF m.bnd n
  | none => []

/-- Modelled from the spec: getConfiguration from stateUtils.ts (not under
src/). The configuration always includes every ancestor of every member and,
for an active parallel node, every one of its children; this closure computes
exactly that (the source's first argument, the previous configuration, is
used there to retain unexited parallel regions, which no claim involves). -/
def closureM (m : MachineM) (X : List SPath) : List SPath :=
  let A := dedupFirst (X.flatMap ancChain)
  dedupFirst (A ++ A.flatMap (fun p => (forcedAt m p).map (p ++ ·)))

/-- getStateNodes from nodeUtils.ts (lines 570-610): the state nodes named by
a state value; a string value whose node declares an initial key is descended
through that initial key. -/
def gsnF : Nat → SN → SPath → SV → List SPath
  | 0, _, _, _ => []
  | f + 1, sn, base, .leaf s =>
    match findChild sn s with
    | some c =>
      match c.initialKey with
      | some ik => (base ++ [s]) :: gsnF f c (base ++ [s]) (.leaf ik)
      | none => [base ++ [s]]
    | none => [base ++ [s]]
  | f + 1, sn, base, .node kvs =>
    kvs.map (fun kv => base ++ [kv.1]) ++
      kvs.flatMap (fun kv =>
        match findChild sn kv.1 with
        | some c => gsnF f c (base ++ [kv.1]) kv.2
        | none => [])

/-- The state nodes of a machine state value (getStateNodes at the root). -/
def getStateNodesM (m : MachineM) (f : Nat) (v : SV) : List SPath :=
  gsnF f m.root [] v

/-- initialStateValue from StateNode.ts (lines 1038-1068): a parallel node
maps every non-history child to its initial value, a compound node wraps its
initial child (a leaf child yields the bare key), anything else has none. -/
def initialStateValueF : Nat → SN → Option SV
  | 0, _ => none
  | f + 1, n =>
    if n.stype = .parallel then
      some (.node (n.children.filterMap (fun kc =>
        if kc.2.stype = .history then none
        else some (kc.1, (initialStateValueF f kc.2).getD (.node [])))))
    else
      match n.initialKey with
      | some ik =>
        match findChild n ik with
        | none => none
        | some c =>
          if isLeafN c then some (.leaf ik)
          else some (.node [(ik, (initialStateValueF f c).getD (.node []))])
      | none => none

/-- Modelled from the spec: getValue from stateUtils.ts (not under src/):
the state value derived from a configuration; a parallel node maps its active
children, a compound node selects its active child, yielding a bare leaf key
when nothing below it is active. -/
def getValueF : Nat → SN → SPath → List SPath → SV
  | 0, _, _, _ => .node []
  | f + 1, sn, base, conf =>
    if sn.stype = .parallel then
      .node (sn.children.filterMap (fun kc =>
        if (base ++ [kc.1]) ∈ conf then
          some (kc.1, getValueF f kc.2 (base ++ [kc.1]) conf)
        else none))
    else
      match sn.children.find? (fun kc => (base ++ [kc.1]) ∈ conf) with
      | none => .node []
      | some kc =>
        if kc.2.stype = .parallel ∨ kc.2.children.any (fun g => (base ++ [kc.1, g.1]) ∈ conf) then
          .node [(kc.1, getValueF f kc.2 (base ++ [kc.1]) conf)]
        else .leaf kc.1

/-- The machine state value of a configuration. -/
def mValue (m : MachineM) (conf : List SPath) : SV := getValueF m.bnd m.root [] conf

/-- Modelled from the spec: isInFinalState from stateUtils.ts (not under
src/): a compound node is done when a final child is active; a parallel node
when every region is done. -/
def isInFinalF : Nat → SN → SPath → List SPath → Bool
  | 0, _, _, _ => false
  | f + 1, sn, base, conf =>
    match sn.stype with
    | .compound => sn.children.any (fun kc => kc.2.stype = .final ∧ (base ++ [kc.1]) ∈ conf)
    | .parallel => sn.children.all (fun kc => isInFinalF f kc.2 (base ++ [kc.1]) conf)
    | _ => false

/-- isInFinalState of the node at a path. -/
def isFinalCfg (m : MachineM) (base : SPath) (conf : List SPath) : Bool :=
  match mNodeAt m base with
  | some sn => isInFinalF m.bnd sn base conf
  | none => false

/-- ownEvents from StateNode.ts (lines 1155-1169): the event types of the
node's transitions, excluding inert ones (no target, no actions, internal). -/
def ownEventsN (n : SN) : List String :=
  dedupFirst ((n.transitions.filter (fun t =>
    ¬(t.target.isNone ∧ t.actions.isEmpty ∧ t.internal))).map (·.eventType))

/-- events from StateNode.ts (lines 1129-1148): the node's own events plus
those of all descendants. -/
def eventsF : Nat → SN → List String
  | 0, _ => []
  | f + 1, n => dedupFirst (ownEventsN n ++ n.children.flatMap (fun kc => eventsF f kc.2))

/-- The event alphabet of the machine. -/
def machineEvents (m : MachineM) : List String := eventsF m.bnd m.root

/-- Whether a string starts with the given front segment (character-list
comparison; the library byte-level startsWith does not reduce in the
kernel). -/
def strStarts (s front : String) : Bool := front.data.isPrefixOf s.data

/-- Modelled from the spec: isBuiltInEvent from utils.ts (not under src/).
The built-in raised events of the spec are the done.state / done.invoke /
error events, so built-in means the type starts with one of the reserved
front segments. -/
def isBuiltInEventM (t : String) : Bool :=
  strStarts t "done." ∨ strStarts t "error." ∨ strStarts t "xstate."

/-- getCandidates from nodeUtils.ts (lines 112-129): the transitions whose
eventType equals the event name, or the wildcard when the event is not the
null event (the cache slot is omitted; the function is pure). -/
def getCandidatesM (n : SN) (eventName : String) : List TransitionDef :=
  let transient := eventName = ""
  n.transitions.filter (fun t =>
    let sameEventType := t.eventType = eventName
    if transient then sameEventType else sameEventType ∨ t.eventType = "*")

/-- A history value (HistoryValue in types.ts): the recorded current value of
a subtree plus recursive entries for the non-history children (an entry may
be absent, the source's undefined). -/
inductive HistVal where
  | mk : Option SV → List (String × Option HistVal) → HistVal

/-- The recorded current value. -/
def HistVal.current : HistVal → Option SV
  | .mk c _ => c

/-- The recursive child entries. -/
def HistVal.statesH : HistVal → List (String × Option HistVal)
  | .mk _ s => s

/-- The subvalue of a mapping at a key (undefined for a string, as in
`isString(relativeStateValue) ? undefined : relativeStateValue[key]`). -/
def subValOf (v : SV) (k : String) : Option SV :=
  match v with
  | .leaf _ => none
  | .node kvs => svGet kvs k

/-- getHistoryValue from nodeUtils.ts (lines 363-392): none for a childless
node, otherwise the relative value (falling back to the initial value) as
current, with entries for every non-history child built from the child's
subvalue or its initial value. -/
def getHVF : Nat → SN → Option SV → Option HistVal
  | 0, _, _ => none
  | f + 1, sn, rel =>
    if sn.children.isEmpty then none
    else
      some (.mk
        (rel.orElse (fun _ => initialStateValueF f sn))
        (sn.children.filterMap (fun kc =>
          if kc.2.stype = .history then none
          else
            some (kc.1,
              match rel with
              | none => getHVF f kc.2 none
              | some rv => getHVF f kc.2 ((subValOf rv kc.1).orElse (fun _ => initialStateValueF f kc.2))))))

/-- The machine's history value snapshot of a state value
(getHistoryValue(machine, value)). -/
def getHV (m : MachineM) (v : SV) : Option HistVal := getHVF m.bnd m.root (some v)

/-- Modelled from the spec: nestedPath(props, 'states') from utils.ts (not
under src/): navigates historyValue.states[k1].states[k2]... along a path. -/
def navigateHV : HistVal → SPath → Option HistVal
  | hv, [] => some hv
  | hv, k :: rest =>
    match (hv.statesH.find? (fun ks => ks.1 = k)).map (·.2) with
    | some (some sub) => navigateHV sub rest
    | _ => none

/-- Modelled from the spec: updateHistoryValue from utils.ts (not under
src/). On exiting a subtree, the engine writes the current value of that
subtree into the history slots: each recorded entry is updated with the
matching subvalue of the new state value, keeping the previous record where
the new value does not reach. -/
def updateHVF : Nat → HistVal → SV → HistVal
  | 0, hv, _ => hv
  | f + 1, .mk _ sts, v =>
    .mk (some v)
      (sts.map (fun ks =>
        match ks.2 with
        | none => (ks.1, none)
        | some sub =>
          match (subValOf v ks.1).orElse (fun _ => sub.current) with
          | none => (ks.1, none)
          | some sv => (ks.1, some (updateHVF f sub sv))))

/-- The three mutually recursive lookup functions of nodeUtils.ts, run by one
fueled interpreter so that every call evaluates by rfl:
`fromRel` is getFromRelativePath (lines 399-422), `resolveH` is
resolveHistory (lines 331-362) and `initialNodes` is getInitialStateNodes
(lines 441-463). -/
inductive HCall where
  | fromRel : SPath → List String → HCall
  | resolveH : SPath → Option HistVal → HCall
  | initialNodes : SPath → HCall

/-- Runs one of the three lookups. getFromRelativePath walks the relative
path, detouring through resolveHistory at a history child; resolveHistory
recalls the parent's recorded value (deep: the exact leaves; shallow: the
top-level keys), falling back to the declared default target and then to the
parent's initial nodes; getInitialStateNodes descends through the initial
state value. Lookup failures that the source turns into thrown errors yield
[]. -/
def histRun (m : MachineM) : Nat → HCall → List SPath
  | 0, _ => []
  | f + 1, .fromRel base rel =>
    match rel with
    | [] => [base]
    | k :: rest =>
      match mNodeAt m base with
      | none => []
      | some sn =>
        match findChild sn k with
        | none => []
        | some c =>
          if c.stype = .history then histRun m f (.resolveH (base ++ [k]) none)
          else histRun m f (.fromRel (base ++ [k]) rest)
  | f + 1, .resolveH p hv =>
    match mNodeAt m p with
    | none => []
    | some sn =>
      if sn.stype ≠ .history then [p]
      else
        let parentP := p.dropLast
        match hv with
        | none =>
          match sn.histTarget with
          | some tv => (toStatePathsF m.bnd tv).flatMap (fun q => histRun m f (.fromRel parentP q))
          | none => histRun m f (.initialNodes parentP)
        | some h =>
          match (navigateHV h parentP).bind HistVal.current with
          | none => []
          | some (.leaf s) =>
            match mNodeAt m (parentP ++ [s]) with
            | some _ => [parentP ++ [s]]
            | none => []
          | some (.node kvs) =>
            (toStatePathsF m.bnd (.node kvs)).flatMap (fun q =>
              if sn.deepHist then histRun m f (.fromRel parentP q)
              else
                match q with
                | [] => []
                | k :: _ =>
                  match mNodeAt m (parentP ++ [k]) with
                  | some _ => [parentP ++ [k]]
                  | none => [])
  | f + 1, .initialNodes base =>
    match mNodeAt m base with
    | none => []
    | some sn =>
      if isLeafN sn then [base]
      else if sn.stype = .compound ∧ sn.initialKey = none then [base]
      else
        match initialStateValueF m.bnd sn with
        | none => [base]
        | some iv => (toStatePathsF m.bnd iv).flatMap (fun q => histRun m f (.fromRel base q))

/-- Whether one path is a prefix of another (the ancestor-or-self relation on
node paths). -/
def isPathPfx (p q : SPath) : Bool := q.take p.length = p

/-- The descending chain from a node up to an ancestor, both included. -/
def chainUp (self q : SPath) : List SPath :=
  (List.range (q.length - self.length + 1)).map (fun i => q.take (q.length - i))

/-- nodesFromChild from nodeUtils.ts (lines 612-630): the chain from the
child up to the node, inclusive; empty when the child escapes the node
(escapes, lines 636-654: the node is neither the child nor an ancestor of
it). -/
def nodesFromChildM (self q : SPath) : List SPath :=
  if isPathPfx self q then chainUp self q else []

/-- The immutable State result object (State.ts): value, context,
configuration, the ordered non-raised action list, the history-value
snapshot, the link to the previous state, the event that produced it, the
changed flag (undefined for an initial state), and the done flag. Fields no
claim mentions (children actors, meta, activities map, transitions) are not
modelled. -/
inductive EngineState where
  | mk : SV → Ctx → List SPath → List ActionObj → Option HistVal → Option EngineState →
      Event → Option Bool → Bool → EngineState

/-- The state value. -/
def EngineState.value : EngineState → SV
  | .mk v _ _ _ _ _ _ _ _ => v

/-- The extended context. -/
def EngineState.context : EngineState → Ctx
  | .mk _ c _ _ _ _ _ _ _ => c

/-- The configuration (active state node paths). -/
def EngineState.configuration : EngineState → List SPath
  | .mk _ _ cf _ _ _ _ _ _ => cf

/-- The ordered action list. -/
def EngineState.actions : EngineState → List ActionObj
  | .mk _ _ _ a _ _ _ _ _ => a

/-- The history-value snapshot. -/
def EngineState.historyValue : EngineState → Option HistVal
  | .mk _ _ _ _ h _ _ _ _ => h

/-- The link to the previous state. -/
def EngineState.history : EngineState → Option EngineState
  | .mk _ _ _ _ _ h _ _ _ => h

/-- The event that produced the state. -/
def EngineState.ev : EngineState → Event
  | .mk _ _ _ _ _ _ e _ _ => e

/-- The changed flag. -/
def EngineState.changed : EngineState → Option Bool
  | .mk _ _ _ _ _ _ _ c _ => c

/-- The done flag. -/
def EngineState.done : EngineState → Bool
  | .mk _ _ _ _ _ _ _ _ d => d

/-- Replaces the history link (the `delete history.history` truncation writes
`none`). -/
def EngineState.withHistory : EngineState → Option EngineState → EngineState
  | .mk v c cf a hv _ e ch d, h => .mk v c cf a hv h e ch d

/-- Replaces the action list. -/
def EngineState.withActions : EngineState → List ActionObj → EngineState
  | .mk v c cf _ hv h e ch d, a => .mk v c cf a hv h e ch d

/-- Replaces the event (`state._event = originalEvent; state.event = ...`). -/
def EngineState.withEv : EngineState → Event → EngineState
  | .mk v c cf a hv h _ ch d, e => .mk v c cf a hv h e ch d

/-- Replaces the changed flag. -/
def EngineState.withChanged : EngineState → Option Bool → EngineState
  | .mk v c cf a hv h e _ d, ch => .mk v c cf a hv h e ch d

/-- Replaces the history-value snapshot. -/
def EngineState.withHistoryValue : EngineState → Option HistVal → EngineState
  | .mk v c cf a _ h e ch d, hv => .mk v c cf a hv h e ch d

/-- The failures the public transition call can raise: the wildcard-event
error, the strict-mode unhandled-event error, and fuel exhaustion (the
modelling artifact standing for a run-to-completion chain longer than the
fuel; the source has no bound and recurses). -/
inductive EngErr where
  | wildcardEvent
  | unhandledEventStrict
  | outOfFuel
deriving DecidableEq, Repr

/-- A selected state transition (StateTransition in types.ts): the selected
transitions, entry and exit sets, tentative configuration, whether a source
state exists (the source stores the state object; only its truthiness is
read), and the transitions' own actions. -/
structure StTrans where
  transitions : List TransitionDef
  entrySet : List SPath
  exitSet : List SPath
  configuration : List SPath
  source : Bool
  actions : List ActionObj

/-- The globally unique id of the node at a path: the machine key and the
path segments joined by the delimiter (StateNode.id). -/
def idOf (m : MachineM) (p : SPath) : String := String.intercalate "." (m.key :: p)

/-- An activity start action (start(activity) from actions.ts, carrying the
activity id). -/
def mkStart (a : String) : ActionObj := .mk startT id a none (fun _ => [])

/-- An activity stop action (stop(activity) from actions.ts). -/
def mkStop (a : String) : ActionObj := .mk stopT id a none (fun _ => [])

/-- The done events of getActions (nodeUtils.ts lines 722-756): every final
node of the entry set raises done for itself and for its parent, and for a
parallel grandparent whose regions are all final in the configuration, done
for the grandparent. The done event name is modelled from the spec as
done.state.(id); the payload mapping (sn.data) is not modelled. -/
def doneEventsOf (m : MachineM) (entry : List SPath) (conf : List SPath) : List String :=
  entry.flatMap (fun p =>
    match mNodeAt m p with
    | none => []
    | some sn =>
      if sn.stype ≠ .final then []
      else
        match p with
        | [] => []
        | _ :: _ =>
          let parentP := p.dropLast
          let base := ["done.state." ++ idOf m p, "done.state." ++ idOf m parentP]
          if parentP = [] then base
          else
            let gp := parentP.dropLast
            match mNodeAt m gp with
            | some g =>
              if g.stype = .parallel ∧
                  g.children.all (fun kc => isInFinalF m.bnd kc.2 (gp ++ [kc.1]) conf) then
                base ++ ["done.state." ++ idOf m gp]
              else base
            | none => base)

/-- toActionObjects against the machine's action registry. The actions here
are already canonical objects and no claim involves the registry, so the
resolution is the identity. -/
def toActionObjectsM (l : List ActionObj) : List ActionObj := l.map (fun a => a)

/-- getActions from nodeUtils.ts (lines 689-787). Computes the previous and
resolved configurations, pushes their differences onto the entry and exit
sets (an exited node is also pushed when its parent was already pushed),
zeroes the exit set and enters the root when there is no source state,
collects the done events of the entered final nodes, sorts the exit set by
document order descending and the entry set ascending, deduplicates them
(the source's `new Set`), and returns exit actions ++ transition actions ++
entry actions ++ raised done events. The source mutates
transition.entrySet/exitSet in place; the final sets are returned alongside.
The source's currentContext and _event arguments only feed the done-event
payload mapping, which is not modelled, so they are dropped here. -/
def getActionsM (m : MachineM) (st : StTrans) (prevState : Option EngineState) :
    List ActionObj × List SPath × List SPath × List String :=
  let prevConfig := closureM m
    (match prevState with
     | some ps => getStateNodesM m m.bnd ps.value
     | none => [([] : SPath)])
  let resolvedConfig := if st.configuration.isEmpty then prevConfig else closureM m st.configuration
  let entrySet1 := st.entrySet ++ resolvedConfig.filter (fun p => p ∉ prevConfig)
  let exitSet1 := prevConfig.foldl (fun acc p =>
    if p ∉ resolvedConfig ∨ (p ≠ [] ∧ p.dropLast ∈ acc) then acc ++ [p] else acc) st.exitSet
  let entrySet2 := if st.source then entrySet1 else entrySet1 ++ [([] : SPath)]
  let exitSet2 := if st.source then exitSet1 else []
  let doneEvts := doneEventsOf m entrySet2 st.configuration
  let exitSorted := List.insertionSort (fun a b => docOrder m b ≤ docOrder m a) exitSet2
  let entrySorted := List.insertionSort (fun a b => docOrder m a ≤ docOrder m b) entrySet2
  let entryStates := dedupFirst entrySorted
  let exitStates := dedupFirst exitSorted
  let entryActions := entryStates.flatMap (fun p =>
      match mNodeAt m p with
      | some sn => sn.activityIds.map mkStart ++ sn.entryActs
      | none => []) ++ doneEvts.map mkRaise
  let exitActions := exitStates.flatMap (fun p =>
      match mNodeAt m p with
      | some sn => sn.exitActs ++ sn.activityIds.map mkStop
      | none => [])
  let actions := toActionObjectsM (exitActions ++ st.actions ++ entryActions)
  (actions, entryStates, exitStates, doneEvts)

/-- Resolution of one non-assign action object (the switch of
resolveTransition, nodeUtils.ts lines 965-1009): a pure action expands to the
descriptor list its function returns; raise keeps the raised event
(resolveRaise), send resolves payload and delay against the updated context
(not modelled; the object passes through), log likewise, and unknown types
are forwarded verbatim through toActionObject. -/
def resolveOneAct (updCtx : Ctx) (a : ActionObj) : List ActionObj :=
  if a.atype = pureT then a.pureGet updCtx else [a]

/-- Whether a resolved action joins the raised-events queue (the partition of
nodeUtils.ts lines 1011-1022): a raise, or a send to the internal target. -/
def isRaisedAct (a : ActionObj) : Bool :=
  a.atype = raiseT ∨ (a.atype = sendT ∧ a.sendTo = some internalTgt)

/-- resolveRaisedTransition (nodeUtils.ts lines 899-917): feeds the raised or
null event back into transition, restamps the original event on the result,
and prepends the actions accumulated so far (`state.actions.unshift`). -/
def resolveRaisedM (recur : EngineState → Event → Except EngErr (EngineState × Option EngineState))
    (state : EngineState) (rev : Event) (orig : Event) : Except EngErr EngineState :=
  match recur state rev with
  | .error err => .error err
  | .ok (st2, _) => .ok ((st2.withEv orig).withActions (state.actions ++ st2.actions))

/-- The while loop draining the raised-events queue (nodeUtils.ts lines
1114-1122). -/
def raisedLoop (recur : EngineState → Event → Except EngErr (EngineState × Option EngineState))
    (orig : Event) : List ActionObj → EngineState → Except EngErr EngineState
  | [], s => .ok s
  | r :: rest, s =>
    match resolveRaisedM recur s (Event.mk r.eventTag) orig with
    | .error err => .error err
    | .ok s2 => raisedLoop recur orig rest s2

/-- resolveTransition (nodeUtils.ts lines 919-1145, the same function appears
as StateNode.resolveTransition in StateNode.ts lines 766-985). `recur` is
the recursive entry into StateNode.transition used for transient and raised
events; the second component of the result is the input state as the call
leaves it (its history link deleted by the `delete history.history`
truncation). -/
def resolveTransitionCoreM (m : MachineM)
    (recur : EngineState → Event → Except EngErr (EngineState × Option EngineState))
    (st : StTrans) (cs : Option EngineState) (e : Event) (ctx : Ctx) :
    Except EngErr (EngineState × Option EngineState) :=
  let willTransition := cs.isNone ∨ ¬st.transitions.isEmpty
  let resolvedStateValue : Option SV :=
    if willTransition then some (mValue m st.configuration) else none
  let historyValue : Option HistVal :=
    match cs with
    | none => none
    | some c =>
      match c.historyValue with
      | some h => some h
      | none => if st.source then getHV m c.value else none
  let currentContext := (cs.map EngineState.context).getD ctx
  let ga := getActionsM m st cs
  let actions := ga.1
  let split := actions.partition (fun a => a.atype = assignT)
  let assignActions := split.1
  let otherActions := split.2
  let updatedContext :=
    if assignActions.isEmpty then currentContext
    else assignActions.foldl (fun c a => a.assigner c) currentContext
  let resolvedActions := otherActions.flatMap (resolveOneAct updatedContext)
  let rsplit := resolvedActions.partition isRaisedAct
  let raisedEvents := rsplit.1
  let nonRaised := rsplit.2
  let resolvedConfiguration :=
    if resolvedStateValue.isSome then st.configuration
    else (cs.map EngineState.configuration).getD []
  let isDone := isFinalCfg m [] resolvedConfiguration
  let trunc := cs.map (fun c => c.withHistory none)
  let histField : Option EngineState :=
    if resolvedStateValue.isNone ∨ st.source then trunc else none
  let nsHistoryValue : Option HistVal :=
    if resolvedStateValue.isSome then
      match historyValue with
      | some h => some (updateHVF m.bnd h (resolvedStateValue.getD (.node [])))
      | none => none
    else cs.bind EngineState.historyValue
  let nextState : EngineState := .mk
    (resolvedStateValue.getD ((cs.map EngineState.value).getD (.node [])))
    updatedContext
    resolvedConfiguration
    (if resolvedStateValue.isSome then nonRaised else [])
    nsHistoryValue
    histField
    e
    (some (e.etype = updateT ∨ ¬assignActions.isEmpty))
    isDone
  match resolvedStateValue with
  | none => .ok (nextState, trunc)
  | some _ =>
    let isTransient := isTransientN m.root ∨ st.configuration.any (fun p =>
      match mNodeAt m p with
      | some sn => isTransientN sn
      | none => false)
    let step1 : Except EngErr EngineState :=
      if ¬isDone ∧ isTransient then resolveRaisedM recur nextState (Event.mk "") e
      else .ok nextState
    match step1 with
    | .error err => .error err
    | .ok s1 =>
      match (if isDone then .ok s1 else raisedLoop recur e raisedEvents s1 :
          Except EngErr EngineState) with
      | .error err => .error err
      | .ok maybeNext =>
        let changedFinal : Option Bool :=
          if maybeNext.changed = some true then some true
          else
            match histField with
            | some h =>
              some (¬maybeNext.actions.isEmpty ∨ ¬assignActions.isEmpty ∨
                h.value.isLeaf ≠ maybeNext.value.isLeaf ∨ ¬(svEqF m.bnd maybeNext.value h.value))
            | none => none
        let final := ((maybeNext.withChanged changedFinal).withHistoryValue
          nextState.historyValue).withHistory histField
        .ok (final, trunc)

/-- StateNode.next (StateNode.ts lines 596-686): scans the candidates for the
event, takes the first one whose guard and in-state predicate pass, and
builds the StateTransition: without targets an action-only self transition;
with targets the resolved target nodes (history and initial resolution via
getRelativeStateNodes) as configuration, the reentry chain as entry set, and
the node itself as exit set unless the transition is internal. The in-state
predicate is checked with the spec's matches (prefix) relation against the
value two levels up, as the source does with matchesState from utils.ts (not
under src/); the by-#id form of `in` is not modelled. -/
def nextM (m : MachineM) (fuel : Nat) (selfP : SPath) (s : EngineState) (e : Event) :
    Option StTrans :=
  match mNodeAt m selfP with
  | none => none
  | some sn =>
    match (getCandidatesM sn e.etype).find? (fun c =>
        (match c.cond with
         | some g => g s.context e
         | none => true) &&
        (match c.inCond with
         | some sv =>
           match valueBranch s.value (selfP.take (selfP.length - 2)) with
           | some sc => svPrefixF m.bnd sv sc
           | none => false
         | none => true)) with
    | none => none
    | some cand =>
      let tgts := cand.target.getD []
      if tgts.isEmpty then
        some { transitions := [cand], entrySet := [], exitSet := [],
               configuration := [selfP], source := true, actions := cand.actions }
      else
        let allNext := tgts.flatMap (fun t =>
          match mNodeAt m t with
          | some tn =>
            if tn.stype = .history then histRun m fuel (.resolveH t s.historyValue)
            else histRun m fuel (.initialNodes t)
          | none => [])
        let reentry := if cand.internal then [] else allNext.flatMap (nodesFromChildM selfP)
        some { transitions := [cand], entrySet := reentry,
               exitSet := if cand.internal then [] else [selfP],
               configuration := allNext, source := true, actions := cand.actions }

/-- StateNode._transition (StateNode.ts lines 578-595, also transitionNode in
nodeUtils.ts lines 879-897) with its three cases: transitionLeafNode (lines
492-505), transitionCompoundNode (506-525) and transitionParallelNode
(526-577). `vf` bounds the structural descent into the state value. -/
def transitionNodeM (m : MachineM) (fuel : Nat) :
    Nat → SPath → SV → EngineState → Event → Option StTrans
  | 0, _, _, _, _ => none
  | _ + 1, base, .leaf str, s, e =>
    (match nextM m fuel (base ++ [str]) s e with
     | some r => if r.transitions.isEmpty then nextM m fuel base s e else some r
     | none => nextM m fuel base s e)
  | vf + 1, base, .node kvs, s, e =>
    match kvs with
    | [(k, sub)] =>
      (match transitionNodeM m fuel vf (base ++ [k]) sub s e with
       | some r => if r.transitions.isEmpty then nextM m fuel base s e else some r
       | none => nextM m fuel base s e)
    | _ =>
      let results := kvs.filterMap (fun kv =>
        (transitionNodeM m fuel vf (base ++ [kv.1]) kv.2 s e).map (fun r => (kv.1, r)))
      let willTransition := results.any (fun kr => ¬kr.2.transitions.isEmpty)
      if ¬willTransition then nextM m fuel base s e
      else
        some { transitions := results.flatMap (fun kr => kr.2.transitions),
               entrySet := results.flatMap (fun kr => kr.2.entrySet),
               exitSet := results.flatMap (fun kr => kr.2.exitSet),
               configuration := results.flatMap (fun kr => kr.2.configuration),
               source := true,
               actions := results.flatMap (fun kr => kr.2.actions) }

/-- The default StateTransition used when nothing selects (StateNode.ts lines
729-736). -/
def defaultStTrans : StTrans :=
  { transitions := [], entrySet := [], exitSet := [], configuration := [],
    source := true, actions := [] }

/-- StateNode.transition (StateNode.ts lines 695-749), the public engine
entry on the machine root, taking a State instance (the StateValue-accepting
branch, which resolves a value to a State first, is not modelled). The fuel
bounds the run-to-completion recursion through transient and raised events;
the source has no such bound and recurses unboundedly, so exhaustion is
reported as outOfFuel. In non-production builds a wildcard event throws; a
strict machine rejects events outside its alphabet unless they are built-in.
The result pairs the produced State with the input state as the call leaves
it. -/
def transitionF (m : MachineM) : Nat → EngineState → Event → Except EngErr (EngineState × Option EngineState)
  | 0, _, _ => .error .outOfFuel
  | f + 1, s, e =>
    if e.etype = "*" then .error .wildcardEvent
    else if m.strict ∧ ¬(e.etype ∈ machineEvents m) ∧ ¬isBuiltInEventM e.etype then
      .error .unhandledEventStrict
    else
      let st0 := (transitionNodeM m (f + 1) m.bnd [] s.value s e).getD defaultStTrans
      let prevConfig := closureM m (getStateNodesM m m.bnd s.value)
      let resolvedCfg := if st0.configuration.isEmpty then prevConfig else closureM m st0.configuration
      let st1 := { st0 with configuration := resolvedCfg }
      resolveTransitionCoreM m (fun s2 e2 => transitionF m f s2 e2) st1 (some s) e m.context

/-- A targeted transition with no guard and no actions. -/
def tgo (ev : String) (t : SPath) : TransitionDef :=
  { eventType := ev, target := some [t], cond := none, inCond := none,
    internal := false, actions := [] }

/-- A targeted transition carrying actions. -/
def tgoActs (ev : String) (t : SPath) (acts : List ActionObj) : TransitionDef :=
  { eventType := ev, target := some [t], cond := none, inCond := none,
    internal := false, actions := acts }

/-- An atomic node with the given transitions. -/
def atomicN (ts : List TransitionDef) : SN :=
  .mk .atomic none false none [] [] [] ts []

/-- A compound node with the given initial key, transitions and children. -/
def compoundN (ik : String) (ts : List TransitionDef) (cs : List (String × SN)) : SN :=
  .mk .compound (some ik) false none [] [] [] ts cs

/-- The traffic-light machine of the spec's first scenario: three atomic
states cycling on TIMER. -/
def lightM : MachineM :=
  { key := "light",
    root := compoundN "green" []
      [("green", atomicN [tgo "TIMER" ["yellow"]]),
       ("yellow", atomicN [tgo "TIMER" ["red"]]),
       ("red", atomicN [tgo "TIMER" ["green"]])],
    strict := false, context := 0, bnd := 5 }

/-- The traffic-light machine with the strict flag set. -/
def strictLightM : MachineM := { lightM with strict := true }

/-- A machine whose single state loops to itself on TIMER while running one
custom (non-assign) action. -/
def beepM : MachineM :=
  { key := "beep",
    root := compoundN "green" []
      [("green", atomicN [tgoActs "TIMER" ["green"] [mkAct "playBeep"]])],
    strict := false, context := 0, bnd := 5 }

/-- A machine with a cycle of transient (null-event) transitions: entering A
immediately moves to B and entering B immediately moves back to A. -/
def cycM : MachineM :=
  { key := "cyc",
    root := compoundN "A" []
      [("A", atomicN [tgo "" ["B"]]),
       ("B", atomicN [tgo "" ["A"]])],
    strict := false, context := 0, bnd := 5 }

/-- A fresh engine state at a leaf of the machine root, with the
configuration the engine itself derives for that value. -/
def mkState (m : MachineM) (v : SV) (c : Ctx) : EngineState :=
  .mk v c (closureM m (getStateNodesM m m.bnd v)) [] none none (Event.mk "xstate.init") none false

/-- C10: with fuel available, a wildcard-typed input event is rejected before
any selection: transition throws (non-production builds) instead of selecting
wildcard transitions or returning an unchanged State, for every machine and
every state. -/
theorem c10_wildcard_event_rejected (m : MachineM) (f : Nat) (s : EngineState) :
    transitionF m (f + 1) s (Event.mk "*") = .error .wildcardEvent := by
  simp [transitionF]

/-- C8: the candidates enumerated for an event name are exactly the node's
transitions whose eventType equals the event name or the wildcard, except
that for the null event only null-event transitions are candidates — the
wildcard never matches the null event. -/
theorem c8_candidates_exact (n : SN) (ev : String) (t : TransitionDef) :
    t ∈ getCandidatesM n ev ↔
      t ∈ n.transitions ∧
        ((t.eventType = ev ∨ t.eventType = "*") ∧ (ev = "" → t.eventType = "")) := by
  by_cases h : ev = "" <;>
    simp [getCandidatesM, List.mem_filter, h] <;> tauto

/-- C7 (amended): for a strict machine, an event whose type is outside the
machine's event alphabet fails the call with the strict-mode
unhandled-event error, provided the type is neither a built-in event type
(which strict mode exempts) nor the wildcard (which is rejected earlier with
a different error). -/
theorem c7_strict_unhandled (m : MachineM) (f : Nat) (s : EngineState) (e : Event)
    (hs : m.strict = true) (h1 : e.etype ∉ machineEvents m)
    (h2 : isBuiltInEventM e.etype = false) (h3 : e.etype ≠ "*") :
    transitionF m (f + 1) s e = .error .unhandledEventStrict := by
  simp [transitionF, h3, hs, h1, h2]

/-- Witness for C7: the strict traffic light rejects the unknown event NOPE
through the amended theorem. -/
theorem c7_strict_unhandled_witness :
    strictLightM.strict = true ∧ ("NOPE" ∉ machineEvents strictLightM) ∧
      isBuiltInEventM "NOPE" = false ∧ ("NOPE" : String) ≠ "*" ∧
      transitionF strictLightM 5 (mkState strictLightM (.leaf "green") 0) (Event.mk "NOPE") =
        .error .unhandledEventStrict :=
  ⟨rfl, by decide, by decide, by decide,
    c7_strict_unhandled strictLightM 4 (mkState strictLightM (.leaf "green") 0) (Event.mk "NOPE")
      rfl (by decide) (by decide) (by decide)⟩

/-- Counterexample for C7 as stated: done.foo is not in the strict traffic
light's event alphabet, yet the call does not fail — built-in event types are
exempt from strict-mode enforcement, contradicting the claim's unconditional
failure for every event outside the alphabet. -/
theorem c7_counterexample :
    strictLightM.strict = true ∧ ("done.foo" ∉ machineEvents strictLightM) ∧
      (transitionF strictLightM 5 (mkState strictLightM (.leaf "green") 0)
        (Event.mk "done.foo")).isOk = true := by
  exact ⟨rfl, by decide, by decide⟩

set_option maxHeartbeats 2000000 in
/-- One resolveTransition step of the transient cycle from A: the null-event
transition moves to B, the entered node is transient, so the engine
immediately recurses; when every recursive call on a B-valued state runs out
of fuel, so does this step. -/
theorem cycCoreA (recur : EngineState → Event → Except EngErr (EngineState × Option EngineState))
    (hrec : ∀ s', s'.value = .leaf "B" → recur s' (Event.mk "") = .error .outOfFuel)
    (ctx : Ctx) (c : Ctx) (cf : List SPath) (a : List ActionObj) (hv : Option HistVal)
    (hst : Option EngineState) (ev : Event) (ch : Option Bool) (d : Bool) :
    resolveTransitionCoreM cycM recur
      { transitions := [tgo "" ["B"]], entrySet := [], exitSet := [["A"]],
        configuration := [[], ["B"]], source := true, actions := [] }
      (some (.mk (.leaf "A") c cf a hv hst ev ch d)) (Event.mk "") ctx = .error .outOfFuel := by
  have hga : getActionsM cycM
      { transitions := [tgo "" ["B"]], entrySet := [], exitSet := [["A"]],
        configuration := [[], ["B"]], source := true, actions := [] }
      (some (.mk (.leaf "A") c cf a hv hst ev ch d)) = ([], [["B"]], [["A"]], []) := rfl
  have hmv : mValue cycM [[], ["B"]] = .leaf "B" := rfl
  have hdone : isFinalCfg cycM [] [[], ["B"]] = false := rfl
  have htr : (isTransientN cycM.root = true ∨
      ([[], ["B"]].any fun p =>
          match mNodeAt cycM p with
          | some sn => isTransientN sn
          | none => false) = true) := by decide
  have hp1 : List.partition (fun a : ActionObj => decide (a.atype = assignT)) [] = ([], []) := rfl
  have hp2 : List.partition isRaisedAct [] = ([], []) := rfl
  simp only [resolveTransitionCoreM, hga, hmv, hdone, hp1, hp2, Option.isNone_some,
    List.isEmpty_cons, Option.map_some, Option.getD_some, Option.isSome_some,
    EngineState.value, EngineState.context, EngineState.configuration,
    List.flatMap_nil, Bool.false_eq_true, false_or, not_false_eq_true, if_true, if_false,
    List.isEmpty_nil, ite_true, ite_false, eq_self_iff_true, true_and, and_true,
    htr, resolveRaisedM]
  rw [hrec]
  rfl

set_option maxHeartbeats 2000000 in
/-- One resolveTransition step of the transient cycle from B, symmetric to
cycCoreA. -/
theorem cycCoreB (recur : EngineState → Event → Except EngErr (EngineState × Option EngineState))
    (hrec : ∀ s', s'.value = .leaf "A" → recur s' (Event.mk "") = .error .outOfFuel)
    (ctx : Ctx) (c : Ctx) (cf : List SPath) (a : List ActionObj) (hv : Option HistVal)
    (hst : Option EngineState) (ev : Event) (ch : Option Bool) (d : Bool) :
    resolveTransitionCoreM cycM recur
      { transitions := [tgo "" ["A"]], entrySet := [], exitSet := [["B"]],
        configuration := [[], ["A"]], source := true, actions := [] }
      (some (.mk (.leaf "B") c cf a hv hst ev ch d)) (Event.mk "") ctx = .error .outOfFuel := by
  have hga : getActionsM cycM
      { transitions := [tgo "" ["A"]], entrySet := [], exitSet := [["B"]],
        configuration := [[], ["A"]], source := true, actions := [] }
      (some (.mk (.leaf "B") c cf a hv hst ev ch d)) = ([], [["A"]], [["B"]], []) := rfl
  have hmv : mValue cycM [[], ["A"]] = .leaf "A" := rfl
  have hdone : isFinalCfg cycM [] [[], ["A"]] = false := rfl
  have htr : (isTransientN cycM.root = true ∨
      ([[], ["A"]].any fun p =>
          match mNodeAt cycM p with
          | some sn => isTransientN sn
          | none => false) = true) := by decide
  have hp1 : List.partition (fun a : ActionObj => decide (a.atype = assignT)) [] = ([], []) := rfl
  have hp2 : List.partition isRaisedAct [] = ([], []) := rfl
  simp only [resolveTransitionCoreM, hga, hmv, hdone, hp1, hp2, Option.isNone_some,
    List.isEmpty_cons, Option.map_some, Option.getD_some, Option.isSome_some,
    EngineState.value, EngineState.context, EngineState.configuration,
    List.flatMap_nil, Bool.false_eq_true, false_or, not_false_eq_true, if_true, if_false,
    List.isEmpty_nil, ite_true, ite_false, eq_self_iff_true, true_and, and_true,
    htr, resolveRaisedM]
  rw [hrec]
  rfl

set_option maxHeartbeats 2000000 in
/-- C5 (amended): the engine has no transient-loop bound and no TransientLoop
error. On the machine whose two states are joined by a cycle of null-event
transitions, the run-to-completion recursion never reaches quiescence: for
every fuel amount, the call exhausts the fuel instead of returning a State
(the source, which recurses with no bound at all, never returns on this
input). -/
theorem c5_transient_cycle_diverges : ∀ (f : Nat) (s : EngineState),
    s.value = .leaf "A" ∨ s.value = .leaf "B" →
    transitionF cycM f s (Event.mk "") = .error .outOfFuel := by
  intro f
  induction f with
  | zero => intro s _; rfl
  | succ n ih =>
    rintro ⟨v, c, cf, a, hv, hst, ev, ch, d⟩ hs
    simp only [EngineState.value] at hs
    rcases hs with h | h <;> subst h
    · have h1 : transitionNodeM cycM (n + 1) cycM.bnd [] (.leaf "A")
          (.mk (.leaf "A") c cf a hv hst ev ch d) (Event.mk "") =
          some { transitions := [tgo "" ["B"]], entrySet := [], exitSet := [["A"]],
                 configuration := [["B"]], source := true, actions := [] } := rfl
      have h2 : closureM cycM (getStateNodesM cycM cycM.bnd (.leaf "A")) = [[], ["A"]] := rfl
      have h3 : closureM cycM [["B"]] = [[], ["B"]] := rfl
      simp only [transitionF, EngineState.value, h1, h2, h3, Option.getD_some]
      rw [if_neg (by decide : ¬("" = "*"))]
      rw [if_neg (by decide : ¬(cycM.strict = true ∧ "" ∉ machineEvents cycM ∧
        ¬isBuiltInEventM "" = true))]
      rw [show (if ([["B"]] : List SPath).isEmpty = true then ([[], ["A"]] : List SPath)
        else [[], ["B"]]) = [[], ["B"]] from rfl]
      exact cycCoreA _ (fun s' h => ih s' (Or.inr h)) _ c cf a hv hst ev ch d
    · have h1 : transitionNodeM cycM (n + 1) cycM.bnd [] (.leaf "B")
          (.mk (.leaf "B") c cf a hv hst ev ch d) (Event.mk "") =
          some { transitions := [tgo "" ["A"]], entrySet := [], exitSet := [["B"]],
                 configuration := [["A"]], source := true, actions := [] } := rfl
      have h2 : closureM cycM (getStateNodesM cycM cycM.bnd (.leaf "B")) = [[], ["B"]] := rfl
      have h3 : closureM cycM [["A"]] = [[], ["A"]] := rfl
      simp only [transitionF, EngineState.value, h1, h2, h3, Option.getD_some]
      rw [if_neg (by decide : ¬("" = "*"))]
      rw [if_neg (by decide : ¬(cycM.strict = true ∧ "" ∉ machineEvents cycM ∧
        ¬isBuiltInEventM "" = true))]
      rw [show (if ([["A"]] : List SPath).isEmpty = true then ([[], ["B"]] : List SPath)
        else [[], ["A"]]) = [[], ["A"]] from rfl]
      exact cycCoreB _ (fun s' h => ih s' (Or.inl h)) _ c cf a hv hst ev ch d

/-- Witness for C5: the divergence theorem applied to the concrete cycle
machine at fuel 7. -/
theorem c5_transient_cycle_diverges_witness :
    transitionF cycM 7 (mkState cycM (.leaf "A") 0) (Event.mk "") = .error .outOfFuel :=
  c5_transient_cycle_diverges 7 (mkState cycM (.leaf "A") 0) (Or.inl rfl)

set_option maxRecDepth 4000 in
/-- Counterexample for C5 as stated: feeding the null event to the transient
cycle with fuel 50 — far beyond any configurable bound — produces neither a
returned State nor a TransientLoop failure (no such error exists anywhere in
the engine): the run-to-completion recursion simply consumes all fuel. -/
theorem c5_counterexample :
    transitionF cycM 50 (mkState cycM (.leaf "A") 0) (Event.mk "") = .error .outOfFuel := rfl

/-- A junk state used by the ok-extraction helper. -/
def defaultES : EngineState := .mk (.node []) 0 [] [] none none (Event.mk "") none false

/-- Extracts the produced state and the left-behind input state of a
successful transition call. -/
def okParts (r : Except EngErr (EngineState × Option EngineState)) :
    EngineState × Option EngineState :=
  match r with
  | .ok p => p
  | .error _ => (defaultES, none)

/-- On every return path of resolveTransition, the input state comes out with
exactly one change: its history link deleted (the `delete history.history`
truncation). -/
theorem coreSnd (m : MachineM)
    (recur : EngineState → Event → Except EngErr (EngineState × Option EngineState))
    (st : StTrans) (cs : Option EngineState) (e : Event) (ctx : Ctx)
    (st2 : EngineState) (s2 : Option EngineState)
    (h : resolveTransitionCoreM m recur st cs e ctx = .ok (st2, s2)) :
    s2 = cs.map (fun c => c.withHistory none) := by
  simp only [resolveTransitionCoreM] at h
  split at h
  · simp only [Except.ok.injEq, Prod.mk.injEq] at h
    exact h.2.symm
  · split at h
    · simp at h
    · split at h
      · simp at h
      · simp only [Except.ok.injEq, Prod.mk.injEq] at h
        exact h.2.symm

/-- C3 (amended): a successful transition call leaves the value, context,
configuration, actions, event, and history-value snapshot of the input state
S untouched; the single mutation is the truncation of S's history link
(deleted to keep previous-state chains one level deep). -/
theorem c3_input_mutated_only_in_history (m : MachineM) (f : Nat) (s : EngineState) (e : Event)
    (st2 : EngineState) (s2 : Option EngineState)
    (h : transitionF m (f + 1) s e = .ok (st2, s2)) :
    s2 = some (s.withHistory none) ∧
      (s.withHistory none).value = s.value ∧
      (s.withHistory none).context = s.context ∧
      (s.withHistory none).configuration = s.configuration ∧
      (s.withHistory none).actions = s.actions ∧
      (s.withHistory none).ev = s.ev ∧
      (s.withHistory none).historyValue = s.historyValue ∧
      (s.withHistory none).history = none := by
  simp only [transitionF] at h
  split at h
  · simp at h
  · split at h
    · simp at h
    · have := coreSnd _ _ _ _ _ _ _ _ h
      simp only [Option.map_some] at this
      refine ⟨this, ?_, ?_, ?_, ?_, ?_, ?_, ?_⟩ <;> cases s <;> rfl

/-- A previous state for the mutation counterexample. -/
def s0red : EngineState := mkState lightM (.leaf "red") 0

/-- A green-light state that still carries a previous-state link. -/
def sWithHist : EngineState :=
  .mk (.leaf "green") 0 [[], ["green"]] [] none (some s0red) (Event.mk "xstate.init") none false

/-- Witness for C3: the mutation theorem applied to the traffic light taking
TIMER from green. -/
theorem c3_input_mutated_only_in_history_witness :
    (okParts (transitionF lightM 5 sWithHist (Event.mk "TIMER"))).2 =
        some (sWithHist.withHistory none) ∧
      (sWithHist.withHistory none).value = sWithHist.value ∧
      (sWithHist.withHistory none).context = sWithHist.context ∧
      (sWithHist.withHistory none).configuration = sWithHist.configuration ∧
      (sWithHist.withHistory none).actions = sWithHist.actions ∧
      (sWithHist.withHistory none).ev = sWithHist.ev ∧
      (sWithHist.withHistory none).historyValue = sWithHist.historyValue ∧
      (sWithHist.withHistory none).history = none :=
  c3_input_mutated_only_in_history lightM 4 sWithHist (Event.mk "TIMER")
    (okParts (transitionF lightM 5 sWithHist (Event.mk "TIMER"))).1
    (okParts (transitionF lightM 5 sWithHist (Event.mk "TIMER"))).2 rfl

/-- Counterexample for C3 as stated: before the call the input state's
history link holds the previous state; the call hands the input back with
that link deleted, so S is mutated (its history-link field differs), against
the claim that every listed field of S is structurally the same. -/
theorem c3_counterexample :
    sWithHist.history = some s0red ∧
      (okParts (transitionF lightM 5 sWithHist (Event.mk "TIMER"))).2 =
        some (sWithHist.withHistory none) ∧
      (sWithHist.withHistory none).history = none :=
  ⟨rfl, rfl, rfl⟩

theorem mem_dedupFirst {α : Type} [DecidableEq α] (l : List α) (a : α) :
    a ∈ dedupFirst l ↔ a ∈ l := by
  have key : ∀ (l : List α) (acc : List α),
      a ∈ l.foldl (fun acc b => if b ∈ acc then acc else acc ++ [b]) acc ↔ a ∈ acc ∨ a ∈ l := by
    intro l
    induction l with
    | nil => intro acc; simp
    | cons b rest ih =>
      intro acc
      by_cases hb : b ∈ acc
      · simp only [List.foldl_cons, if_pos hb, ih]
        constructor
        · rintro (h | h)
          · exact Or.inl h
          · exact Or.inr (List.mem_cons_of_mem _ h)
        · rintro (h | h)
          · exact Or.inl h
          · rcases List.mem_cons.mp h with h | h
            · exact Or.inl (h ▸ hb)
            · exact Or.inr h
      · simp only [List.foldl_cons, if_neg hb, ih, List.mem_append, List.mem_singleton,
          List.mem_cons]
        tauto
  simpa [dedupFirst] using key l []

/-- The initial-segment (ancestor-or-self) relation on paths. -/
def ancOf (a x : SPath) : Prop := ∃ t, a ++ t = x

theorem mem_ancChain (a x : SPath) : a ∈ ancChain x ↔ ancOf a x := by
  simp only [ancChain, List.mem_map, List.mem_range, ancOf]
  constructor
  · rintro ⟨i, _, rfl⟩
    exact ⟨x.drop i, List.take_append_drop i x⟩
  · rintro ⟨t, rfl⟩
    refine ⟨a.length, by simp [Nat.lt_succ_of_le], ?_⟩
    exact List.take_left a t

theorem ancOf_refl (a : SPath) : ancOf a a := ⟨[], by simp⟩

theorem ancOf_trans {a b c : SPath} (h1 : ancOf a b) (h2 : ancOf b c) : ancOf a c := by
  rcases h1 with ⟨t1, rfl⟩
  rcases h2 with ⟨t2, rfl⟩
  exact ⟨t1 ++ t2, by simp⟩

theorem heightLT_mono : ∀ {f g : Nat} (n : SN), f ≤ g → heightLT f n = true → heightLT g n = true := by
  intro f
  induction f with
  | zero => intro g n _ h; simp [heightLT] at h
  | succ f ih =>
    intro g n hfg h
    cases g with
    | zero => omega
    | succ g =>
      simp only [heightLT, List.all_eq_true] at h ⊢
      intro kc hkc
      exact ih kc.2 (Nat.le_of_succ_le_succ hfg) (h kc hkc)

theorem findChild_mem {n : SN} {k : String} {c : SN} (h : findChild n k = some c) :
    ∃ kc ∈ n.children, kc.1 = k ∧ kc.2 = c := by
  simp only [findChild, Option.map_eq_some'] at h
  rcases h with ⟨kc, hfind, rfl⟩
  have hmem := List.mem_of_find?_eq_some hfind
  have hp := List.find?_some hfind
  simp only [decide_eq_true_eq] at hp
  exact ⟨kc, hmem, hp, rfl⟩

theorem heightLT_nodeAt : ∀ (q : SPath) {f : Nat} {n c : SN},
    heightLT f n = true → nodeAt n q = some c → heightLT f c = true := by
  intro q
  induction q with
  | nil =>
    intro f n c h hq
    simp only [nodeAt, Option.some.injEq] at hq
    exact hq ▸ h
  | cons k rest ih =>
    intro f n c h hq
    simp only [nodeAt] at hq
    cases hfc : findChild n k with
    | none => rw [hfc] at hq; exact absurd hq (by simp)
    | some ck =>
      rw [hfc] at hq
      rcases findChild_mem hfc with ⟨kc, hmem, _, rfl⟩
      cases f with
      | zero => simp [heightLT] at h
      | succ f =>
        simp only [heightLT, List.all_eq_true] at h
        exact ih (heightLT_mono _ (Nat.le_succ f) (h kc hmem)) hq

theorem flatMap_congr_mem {α β : Type} {l : List α} {f g : α → List β}
    (h : ∀ a ∈ l, f a = g a) : l.flatMap f = l.flatMap g := by
  induction l with
  | nil => rfl
  | cons a rest ih =>
    simp only [List.flatMap_cons, h a (List.mem_cons_self a rest),
      ih (fun b hb => h b (List.mem_cons_of_mem a hb))]

theorem forcedF_stable : ∀ {f g : Nat} (n : SN), heightLT f n = true → heightLT g n = true →
    forcedF f n = forcedF g n := by
  intro f
  induction f with
  | zero => intro g n h; simp [heightLT] at h
  | succ f ih =>
    intro g n hf hg
    cases g with
    | zero => simp [heightLT] at hg
    | succ g =>
      simp only [forcedF]
      by_cases hp : n.stype = .parallel
      · simp only [if_pos hp]
        simp only [heightLT, List.all_eq_true] at hf hg
        apply flatMap_congr_mem
        intro kc hkc
        rw [ih kc.2 (hf kc hkc) (hg kc hkc)]
      · simp [if_neg hp]

theorem forcedF_take : ∀ {f : Nat} {n : SN} {q : SPath} (i : Nat),
    q ∈ forcedF f n → 0 < i → q.take i ∈ forcedF f n := by
  intro f
  induction f with
  | zero => intro n q i h; simp [forcedF] at h
  | succ f ih =>
    intro n q i hq hi
    simp only [forcedF] at hq ⊢
    by_cases hp : n.stype = .parallel
    · simp only [if_pos hp, List.mem_flatMap] at hq ⊢
      rcases hq with ⟨kc, hkc, hq⟩
      rcases List.mem_cons.mp hq with rfl | hq
      · refine ⟨kc, hkc, ?_⟩
        cases i with
        | zero => omega
        | succ i => simp
      · rcases List.mem_map.mp hq with ⟨q2, hq2, rfl⟩
        refine ⟨kc, hkc, ?_⟩
        cases i with
        | zero => omega
        | succ i =>
          cases i with
          | zero => simp
          | succ i =>
            simp only [List.take_succ_cons, List.mem_cons, List.mem_map]
            exact Or.inr ⟨q2.take (i + 1), ih (i + 1) hq2 (Nat.succ_pos i), rfl⟩
    · simp [if_neg hp] at hq

/-- Decides that every node of the tree has children with pairwise distinct
keys, as JS object literals guarantee for a built machine. -/
def nkeysF : Nat → SN → Bool
  | 0, _ => false
  | f + 1, n =>
    decide ((n.children.map (fun kc => kc.1)).Nodup) &&
      n.children.all (fun kc => nkeysF f kc.2)

theorem nkeysF_mono : ∀ {f g : Nat} (n : SN), f ≤ g → nkeysF f n = true → nkeysF g n = true := by
  intro f
  induction f with
  | zero => intro g n _ h; simp [nkeysF] at h
  | succ f ih =>
    intro g n hfg h
    cases g with
    | zero => omega
    | succ g =>
      simp only [nkeysF, Bool.and_eq_true, List.all_eq_true] at h ⊢
      exact ⟨h.1, fun kc hkc => ih kc.2 (Nat.le_of_succ_le_succ hfg) (h.2 kc hkc)⟩

theorem nkeysF_nodeAt : ∀ (q : SPath) {f : Nat} {n c : SN},
    nkeysF f n = true → nodeAt n q = some c → nkeysF f c = true := by
  intro q
  induction q with
  | nil =>
    intro f n c h hq
    simp only [nodeAt, Option.some.injEq] at hq
    exact hq ▸ h
  | cons k rest ih =>
    intro f n c h hq
    simp only [nodeAt] at hq
    cases hfc : findChild n k with
    | none => rw [hfc] at hq; exact absurd hq (by simp)
    | some ck =>
      rw [hfc] at hq
      rcases findChild_mem hfc with ⟨kc, hmem, _, rfl⟩
      cases f with
      | zero => simp [nkeysF] at h
      | succ f =>
        simp only [nkeysF, Bool.and_eq_true, List.all_eq_true] at h
        exact ih (nkeysF_mono _ (Nat.le_succ f) (h.2 kc hmem)) hq

theorem findAssoc_of_mem : ∀ (l : List (String × SN)) (kc : String × SN),
    (l.map (fun kc => kc.1)).Nodup → kc ∈ l →
    l.find? (fun x => decide (x.1 = kc.1)) = some kc := by
  intro l
  induction l with
  | nil => intro kc _ hmem; simp at hmem
  | cons hd rest ih =>
    intro kc hnd hmem
    simp only [List.map_cons, List.nodup_cons] at hnd
    rcases List.mem_cons.mp hmem with rfl | hmem2
    · exact List.find?_cons_of_pos _ (by simp)
    · have hne : ¬(hd.1 = kc.1) := by
        intro heq
        exact hnd.1 (heq ▸ List.mem_map_of_mem (fun kc => kc.1) hmem2)
      rw [List.find?_cons_of_neg _ (by simpa using hne)]
      exact ih kc hnd.2 hmem2

theorem findChild_of_mem {n : SN} {kc : String × SN}
    (hnd : (n.children.map (fun kc => kc.1)).Nodup) (hmem : kc ∈ n.children) :
    findChild n kc.1 = some kc.2 := by
  simp only [findChild, findAssoc_of_mem n.children kc hnd hmem]
  rfl

theorem nodeAt_append : ∀ (p q : SPath) (n : SN),
    nodeAt n (p ++ q) = (nodeAt n p).bind (fun c => nodeAt c q) := by
  intro p
  induction p with
  | nil => intro q n; simp [nodeAt]
  | cons k rest ih =>
    intro q n
    simp only [List.cons_append, nodeAt]
    cases findChild n k with
    | none => simp
    | some c => simp [ih]

theorem forcedF_append : ∀ {f : Nat} {n : SN} {q : SPath} {c : SN},
    nkeysF f n = true → heightLT f n = true → q ∈ forcedF f n → nodeAt n q = some c →
    ∀ r ∈ forcedF f c, q ++ r ∈ forcedF f n := by
  intro f
  induction f with
  | zero => intro n q c _ _ hq; simp [forcedF] at hq
  | succ f ih =>
    intro n q c hk hh hq hnode r hr
    simp only [forcedF] at hq ⊢
    by_cases hp : n.stype = .parallel
    · simp only [if_pos hp, List.mem_flatMap] at hq ⊢
      rcases hq with ⟨kc, hkc, hq⟩
      simp only [nkeysF, Bool.and_eq_true, List.all_eq_true, decide_eq_true_eq] at hk
      simp only [heightLT, List.all_eq_true] at hh
      have hfc : findChild n kc.1 = some kc.2 := findChild_of_mem hk.1 hkc
      have hhc : heightLT f kc.2 = true := hh kc hkc
      rcases List.mem_cons.mp hq with rfl | hq
      · -- q = [kc.1], so c = kc.2
        simp only [nodeAt, hfc, Option.some.injEq] at hnode
        subst hnode
        have hr2 : r ∈ forcedF f kc.2 := by
          rwa [forcedF_stable kc.2 (heightLT_mono kc.2 (Nat.le_succ f) hhc) hhc] at hr
        exact ⟨kc, hkc, List.mem_cons.mpr (Or.inr (List.mem_map.mpr ⟨r, hr2, by simp⟩))⟩
      · rcases List.mem_map.mp hq with ⟨q2, hq2, rfl⟩
        simp only [nodeAt, hfc] at hnode
        have hhcc : heightLT f c = true := heightLT_nodeAt q2 hhc hnode
        have hr2 : r ∈ forcedF f c := by
          rwa [forcedF_stable c (heightLT_mono c (Nat.le_succ f) hhcc) hhcc] at hr
        have := ih (hk.2 kc hkc) hhc hq2 hnode r hr2
        exact ⟨kc, hkc, List.mem_cons.mpr (Or.inr (List.mem_map.mpr ⟨q2 ++ r, this, by simp⟩))⟩
    · simp [if_neg hp] at hq

theorem mem_closureM (m : MachineM) (X : List SPath) (p : SPath) :
    p ∈ closureM m X ↔
      ((∃ x ∈ X, ancOf p x) ∨
        ∃ a, (∃ x ∈ X, ancOf a x) ∧ ∃ q ∈ forcedAt m a, p = a ++ q) := by
  simp only [closureM, mem_dedupFirst, List.mem_append, List.mem_flatMap, mem_ancChain,
    List.mem_map]
  constructor
  · rintro (h | ⟨a, ha, q, hq, rfl⟩)
    · exact Or.inl h
    · exact Or.inr ⟨a, ha, q, hq, rfl⟩
  · rintro (h | ⟨a, ha, q, hq, rfl⟩)
    · exact Or.inl h
    · exact Or.inr ⟨a, ha, q, hq, rfl⟩

theorem ancOf_take (n : Nat) (l : SPath) : ancOf (l.take n) l :=
  ⟨l.drop n, List.take_append_drop n l⟩

theorem anc_split {p a q : SPath} (h : ancOf p (a ++ q)) :
    ancOf p a ∨ ∃ i, 0 < i ∧ p = a ++ q.take i := by
  rcases h with ⟨t, ht⟩
  have hp : p = (a ++ q).take p.length := by
    rw [← ht, List.take_left]
  by_cases hlen : p.length ≤ a.length
  · left
    rw [hp, List.take_append_of_le_length hlen]
    exact ancOf_take _ _
  · right
    refine ⟨p.length - a.length, by omega, ?_⟩
    conv_lhs => rw [hp]
    rw [List.take_append_eq_append_take, List.take_of_length_le (by omega)]

theorem mem_forcedAt {m : MachineM} {a q : SPath} (h : q ∈ forcedAt m a) :
    ∃ n, mNodeAt m a = some n ∧ q ∈ forcedF m.bnd n := by
  simp only [forcedAt] at h
  cases hn : mNodeAt m a with
  | none => rw [hn] at h; simp at h
  | some n => rw [hn] at h; exact ⟨n, rfl, h⟩

theorem forcedAt_take {m : MachineM} {a q : SPath} (i : Nat) (h : q ∈ forcedAt m a)
    (hi : 0 < i) : q.take i ∈ forcedAt m a := by
  rcases mem_forcedAt h with ⟨n, hn, hq⟩
  simp only [forcedAt, hn]
  exact forcedF_take i hq hi

theorem closure_anc_closed {m : MachineM} {X : List SPath} {p y : SPath}
    (hy : y ∈ closureM m X) (hp : ancOf p y) : p ∈ closureM m X := by
  rcases (mem_closureM m X y).mp hy with ⟨x, hx, hanc⟩ | ⟨a, ⟨x, hx, hanc⟩, q, hq, rfl⟩
  · exact (mem_closureM m X p).mpr (Or.inl ⟨x, hx, ancOf_trans hp hanc⟩)
  · rcases anc_split hp with h | ⟨i, hi, rfl⟩
    · exact (mem_closureM m X p).mpr (Or.inl ⟨x, hx, ancOf_trans h hanc⟩)
    · exact (mem_closureM m X _).mpr
        (Or.inr ⟨a, ⟨x, hx, hanc⟩, q.take i, forcedAt_take i hq hi, rfl⟩)

theorem closureM_idem (m : MachineM) (X : List SPath)
    (hk : nkeysF m.bnd m.root = true) (hh : heightLT m.bnd m.root = true) (p : SPath) :
    p ∈ closureM m (closureM m X) ↔ p ∈ closureM m X := by
  constructor
  · intro h
    rcases (mem_closureM m _ p).mp h with ⟨y, hy, hanc⟩ | ⟨a, ⟨y, hy, hanc⟩, q, hq, rfl⟩
    · exact closure_anc_closed hy hanc
    · have ha : a ∈ closureM m X := closure_anc_closed hy hanc
      rcases (mem_closureM m X a).mp ha with ⟨x, hx, hanc2⟩ | ⟨b, ⟨x, hx, hanc2⟩, q0, hq0, rfl⟩
      · exact (mem_closureM m X _).mpr (Or.inr ⟨a, ⟨x, hx, hanc2⟩, q, hq, rfl⟩)
      · rcases mem_forcedAt hq0 with ⟨nb, hnb, hq0f⟩
        rcases mem_forcedAt hq with ⟨nc, hnc, hqf⟩
        have hnode : nodeAt nb q0 = some nc := by
          have := hnc
          simp only [mNodeAt] at this hnb
          rw [nodeAt_append, hnb] at this
          exact this
        have hhb : heightLT m.bnd nb = true := by
          simp only [mNodeAt] at hnb
          exact heightLT_nodeAt b hh hnb
        have hkb : nkeysF m.bnd nb = true := by
          simp only [mNodeAt] at hnb
          exact nkeysF_nodeAt b hk hnb
        have hcomb : q0 ++ q ∈ forcedF m.bnd nb := by
          have hqf2 : q ∈ forcedF m.bnd nc := hqf
          exact forcedF_append hkb hhb hq0f hnode q hqf2
        refine (mem_closureM m X _).mpr
          (Or.inr ⟨b, ⟨x, hx, hanc2⟩, q0 ++ q, ?_, by simp⟩)
        simp only [forcedAt, hnb]
        exact hcomb
  · intro h
    exact (mem_closureM m _ p).mpr (Or.inl ⟨p, h, ancOf_refl p⟩)

/-- The exit-set fold of getActions stays empty when every member of the
previous configuration is also in the resolved configuration: no node is
exited. -/
theorem exitFold_nil : ∀ (l : List SPath) (R : List SPath), (∀ p ∈ l, p ∈ R) →
    l.foldl (fun acc p =>
      if p ∉ R ∨ (p ≠ [] ∧ p.dropLast ∈ acc) then acc ++ [p] else acc) [] = [] := by
  intro l R h
  induction l with
  | nil => rfl
  | cons p rest ih =>
    simp only [List.foldl_cons]
    rw [if_neg]
    · exact ih (fun x hx => h x (List.mem_cons_of_mem p hx))
    · push_neg
      exact ⟨h p (List.mem_cons_self p rest), fun _ => by simp⟩

/-- When no transition was selected, getActions on the default state
transition (whose configuration is the closure of the previous state's
nodes) collects no actions: the entry filter and the exit fold are both
empty because the closure is idempotent. -/
theorem getActionsM_noTrans (m : MachineM) (s : EngineState)
    (hk : nkeysF m.bnd m.root = true) (hh : heightLT m.bnd m.root = true) :
    (getActionsM m
      { transitions := [], entrySet := [], exitSet := [],
        configuration := closureM m (getStateNodesM m m.bnd s.value), source := true,
        actions := [] }
      (some s)).1 = [] := by
  simp only [getActionsM]
  by_cases hemp : (closureM m (getStateNodesM m m.bnd s.value)).isEmpty = true
  · simp only [hemp, if_true, ite_true]
    rw [List.filter_eq_nil_iff.mpr (fun p hp => by simp [hp]),
      exitFold_nil _ _ (fun p hp => hp)]
    simp [toActionObjectsM, doneEventsOf, dedupFirst]
  · simp only [hemp, if_false, ite_false, Bool.false_eq_true]
    rw [List.filter_eq_nil_iff.mpr (fun p hp => by
        simp only [decide_eq_true_eq, Decidable.not_not]
        exact (closureM_idem m _ hk hh p).mp hp),
      exitFold_nil _ _ (fun p hp => (closureM_idem m _ hk hh p).mpr hp)]
    simp [toActionObjectsM, doneEventsOf, dedupFirst]

/-- C1 (corrected): when the machine-wide well-formedness checks hold and no
transition is selected anywhere in the active configuration (transitionNode
returns none), transition(S, E) returns a state whose value, context and
configuration are identical to S's and whose action list is empty — but the
changed flag is false only for events other than the built-in xstate.update
event: for xstate.update the source unconditionally reports changed = true
even though nothing fired. -/
theorem c1_no_transition_unchanged (m : MachineM) (f : Nat) (s : EngineState) (e : Event)
    (hk : nkeysF m.bnd m.root = true) (hh : heightLT m.bnd m.root = true)
    (hw : e.etype ≠ "*")
    (hstrict : ¬(m.strict = true ∧ e.etype ∉ machineEvents m ∧ ¬isBuiltInEventM e.etype = true))
    (hsel : transitionNodeM m (f + 1) m.bnd [] s.value s e = none) :
    ∃ st, transitionF m (f + 1) s e = .ok (st, some (s.withHistory none)) ∧
      st.value = s.value ∧ st.context = s.context ∧
      st.configuration = s.configuration ∧ st.actions = [] ∧
      (e.etype ≠ updateT → st.changed = some false) ∧
      (e.etype = updateT → st.changed = some true) := by
  simp only [transitionF, hsel, Option.getD, defaultStTrans]
  rw [if_neg hw, if_neg hstrict]
  simp only [List.isEmpty_nil, if_true, ite_true]
  simp only [resolveTransitionCoreM]
  rw [getActionsM_noTrans m s hk hh]
  have hp1 : (List.partition (fun a : ActionObj => decide (a.atype = assignT)) []).1.isEmpty
      = true := rfl
  refine ⟨_, rfl, rfl, rfl, rfl, rfl, ?_, ?_⟩
  · intro hu
    simp only [EngineState.changed]
    simp [hu, hp1]
  · intro hu
    simp only [EngineState.changed]
    simp [hu, hp1]

/-- Witness for C1: the traffic light in state green receives the unknown
event NOPE; no transition is selected, and the returned state has the same
value, context and configuration, no actions, and changed = false. -/
theorem c1_no_transition_unchanged_witness :
    nkeysF lightM.bnd lightM.root = true ∧ heightLT lightM.bnd lightM.root = true ∧
    ("NOPE" : String) ≠ "*" ∧
    ¬(lightM.strict = true ∧ ("NOPE" : String) ∉ machineEvents lightM ∧
        ¬isBuiltInEventM "NOPE" = true) ∧
    transitionNodeM lightM 5 lightM.bnd [] (mkState lightM (.leaf "green") 0).value
        (mkState lightM (.leaf "green") 0) (Event.mk "NOPE") = none ∧
    (∃ st, transitionF lightM 5 (mkState lightM (.leaf "green") 0) (Event.mk "NOPE") =
        .ok (st, some ((mkState lightM (.leaf "green") 0).withHistory none)) ∧
      st.value = (mkState lightM (.leaf "green") 0).value ∧
      st.context = (mkState lightM (.leaf "green") 0).context ∧
      st.configuration = (mkState lightM (.leaf "green") 0).configuration ∧
      st.actions = [] ∧
      (("NOPE" : String) ≠ updateT → st.changed = some false) ∧
      (("NOPE" : String) = updateT → st.changed = some true)) :=
  ⟨by decide, by decide, by decide, by decide, rfl,
    c1_no_transition_unchanged lightM 4 (mkState lightM (.leaf "green") 0) (Event.mk "NOPE")
      (by decide) (by decide) (by decide) (by decide) rfl⟩

/-- Counterexample for C1 as stated: the traffic light in state green
receives xstate.update; no transition fires (same value, no actions), yet
the returned state's changed flag is true, because the source sets
changed = event.name === actionTypes.update || !!assignActions.length. -/
theorem c1_counterexample :
    ((transitionF lightM 5 (mkState lightM (.leaf "green") 0)
        (Event.mk "xstate.update")).toOption.map
      (fun p => (p.1.changed, p.1.actions.isEmpty,
        svEqF lightM.bnd p.1.value (.leaf "green")))) = some (some true, true, true) := rfl

/-- The dedup fold over any accumulator yields a sublist of the accumulator
followed by the input. -/
theorem foldlDedup_sublist {α : Type} [DecidableEq α] :
    ∀ (l acc : List α),
      List.Sublist (l.foldl (fun acc a => if a ∈ acc then acc else acc ++ [a]) acc) (acc ++ l) := by
  intro l
  induction l with
  | nil => intro acc; simp
  | cons a rest ih =>
    intro acc
    simp only [List.foldl_cons]
    by_cases h : a ∈ acc
    · rw [if_pos h]
      exact (ih acc).trans (List.Sublist.append_left (List.sublist_cons_self a rest) acc)
    · rw [if_neg h]
      have := ih (acc ++ [a])
      simpa using this

/-- Keeping first occurrences yields a sublist of the input. -/
theorem dedupFirst_sublist {α : Type} [DecidableEq α] (l : List α) :
    List.Sublist (dedupFirst l) l := by
  simpa using foldlDedup_sublist l []

/-- Deduplication preserves any pairwise ordering of the input. -/
theorem pairwise_dedupFirst {α : Type} [DecidableEq α] {R : α → α → Prop} {l : List α}
    (h : l.Pairwise R) : (dedupFirst l).Pairwise R :=
  h.sublist (dedupFirst_sublist l)

/-- C2: the action list of every microstep decomposes as exit actions of the
exit set, then the selected transitions' own actions, then entry actions of
the entry set, then the raised done events; the exit set is sorted by
document order descending (deeper states first) and the entry set ascending
(shallower states first). In particular every exit action in the output
precedes every entry action, so for any node N its exit actions precede its
entry actions. -/
theorem c2_action_order (m : MachineM) (st : StTrans) (ps : Option EngineState) :
    (getActionsM m st ps).1 =
      ((getActionsM m st ps).2.2.1.flatMap (fun p =>
        match mNodeAt m p with
        | some sn => sn.exitActs ++ sn.activityIds.map mkStop
        | none => []))
      ++ st.actions
      ++ ((getActionsM m st ps).2.1.flatMap (fun p =>
        match mNodeAt m p with
        | some sn => sn.activityIds.map mkStart ++ sn.entryActs
        | none => []))
      ++ ((getActionsM m st ps).2.2.2.map mkRaise) ∧
    List.Pairwise (fun a b => docOrder m b ≤ docOrder m a) (getActionsM m st ps).2.2.1 ∧
    List.Pairwise (fun a b => docOrder m a ≤ docOrder m b) (getActionsM m st ps).2.1 := by
  haveI h1 : IsTotal SPath (fun a b => docOrder m b ≤ docOrder m a) :=
    ⟨fun a b => Nat.le_total (docOrder m b) (docOrder m a)⟩
  haveI h2 : IsTrans SPath (fun a b => docOrder m b ≤ docOrder m a) :=
    ⟨fun _ _ _ ha hb => le_trans hb ha⟩
  haveI h3 : IsTotal SPath (fun a b => docOrder m a ≤ docOrder m b) :=
    ⟨fun a b => Nat.le_total (docOrder m a) (docOrder m b)⟩
  haveI h4 : IsTrans SPath (fun a b => docOrder m a ≤ docOrder m b) :=
    ⟨fun _ _ _ ha hb => le_trans ha hb⟩
  refine ⟨?_, ?_, ?_⟩
  · simp only [getActionsM, toActionObjectsM]
    simp [List.append_assoc]
  · simp only [getActionsM]
    exact pairwise_dedupFirst (List.sorted_insertionSort _ _)
  · simp only [getActionsM]
    exact pairwise_dedupFirst (List.sorted_insertionSort _ _)

/-- Truncating the history link leaves the state value unchanged. -/
theorem value_withHistory (c : EngineState) (h : Option EngineState) :
    (c.withHistory h).value = c.value := by cases c; rfl

/-- C4 (corrected): in a microstep where a transition fires (with a source
state, no transient continuation and no raised events), the changed flag of
the returned State is true if and only if the event is the built-in
xstate.update, OR at least one assign action ran, OR at least one resolved
non-raised action is emitted, OR the new state value structurally differs
from the previous one. The claim's "context changed" disjunct is really
"an assign action ran" (an identity assign still sets changed), and the
claim omits the xstate.update and plain-action disjuncts. -/
theorem c4_changed_iff (m : MachineM)
    (recur : EngineState → Event → Except EngErr (EngineState × Option EngineState))
    (st : StTrans) (c : EngineState) (e : Event)
    (asg oth nonR : List ActionObj) (uctx : Ctx)
    (hfire : st.transitions.isEmpty = false)
    (hsrc : st.source = true)
    (hasg : (List.partition (fun a => a.atype = assignT) (getActionsM m st (some c)).1).1 = asg)
    (hoth : (List.partition (fun a => a.atype = assignT) (getActionsM m st (some c)).1).2 = oth)
    (huctx : (if asg.isEmpty then c.context else
      asg.foldl (fun cx a => a.assigner cx) c.context) = uctx)
    (hraised : (List.partition isRaisedAct (oth.flatMap (resolveOneAct uctx))).1 = [])
    (hnonR : (List.partition isRaisedAct (oth.flatMap (resolveOneAct uctx))).2 = nonR)
    (hnt : isTransientN m.root = false)
    (hnt2 : st.configuration.any (fun p =>
      match mNodeAt m p with
      | some sn => isTransientN sn
      | none => false) = false) :
    ∃ fin, resolveTransitionCoreM m recur st (some c) e m.context =
        .ok (fin, some (c.withHistory none)) ∧
      fin.value = mValue m st.configuration ∧ fin.actions = nonR ∧
      (fin.changed = some true ↔
        (e.etype = updateT ∨ asg ≠ [] ∨ nonR ≠ [] ∨
          (mValue m st.configuration).isLeaf ≠ c.value.isLeaf ∨
          ¬ svEqF m.bnd (mValue m st.configuration) c.value = true)) := by
  simp only [resolveTransitionCoreM, hfire, Option.isNone_some, Bool.false_eq_true,
    not_false_eq_true, or_true, if_true, ite_true, Option.isSome_some, Option.map_some,
    Option.map_some', Option.getD_some]
  rw [hasg, hoth, huctx, hraised, hnonR]
  simp only [hnt, hnt2, hsrc, Bool.false_eq_true, or_self, false_and, and_false, if_false,
    ite_false, raisedLoop, ite_self]
  simp only [false_or, if_true, ite_true, EngineState.changed, EngineState.actions,
    EngineState.value, EngineState.withChanged, EngineState.withHistoryValue,
    EngineState.withHistory]
  by_cases hP : (e.etype = updateT ∨ ¬asg.isEmpty = true)
  · rw [decide_eq_true hP]
    simp only [if_pos rfl]
    refine ⟨_, rfl, rfl, rfl, ?_⟩
    simp only [EngineState.changed]
    constructor
    · intro _
      rcases hP with h | h
      · exact Or.inl h
      · exact Or.inr (Or.inl (by simpa [List.isEmpty_iff] using h))
    · intro _; rfl
  · rw [decide_eq_false hP]
    obtain ⟨v, cx, cf, a, hv, hs, ev, ch, d⟩ := c
    rw [if_neg (by simp : ¬((some false : Option Bool) = some true))]
    refine ⟨_, rfl, rfl, rfl, ?_⟩
    simp only [EngineState.changed, EngineState.value, Option.some.injEq,
      Bool.false_eq_true, decide_eq_true_eq]
    push_neg at hP
    constructor
    · intro hQ
      rcases hQ with h | h | h | h
      · exact Or.inr (Or.inr (Or.inl (by simpa [List.isEmpty_iff] using h)))
      · exact absurd h (by simp [hP.2])
      · exact Or.inr (Or.inr (Or.inr (Or.inl h.symm)))
      · exact Or.inr (Or.inr (Or.inr (Or.inr h)))
    · intro hR
      rcases hR with h | h | h | h | h
      · exact absurd h hP.1
      · exact absurd (by simpa [List.isEmpty_iff] using hP.2) h
      · exact Or.inl (by simpa [List.isEmpty_iff] using h)
      · exact Or.inr (Or.inr (Or.inl h.symm))
      · exact Or.inr (Or.inr (Or.inr h))

/-- The state transition selected when the traffic light takes TIMER from
green to yellow. -/
def c4st : StTrans :=
  { transitions := [tgo "TIMER" ["yellow"]], entrySet := [["yellow"]],
    exitSet := [["green"]], configuration := closureM lightM [["yellow"]],
    source := true, actions := [] }

/-- Witness for C4: the traffic light fires TIMER from green; no assigns and
no emitted actions, and changed is true exactly because the value changed. -/
theorem c4_changed_iff_witness :
    c4st.transitions.isEmpty = false ∧ c4st.source = true ∧
    (List.partition (fun a => a.atype = assignT)
      (getActionsM lightM c4st (some (mkState lightM (.leaf "green") 0))).1).1 = [] ∧
    (List.partition (fun a => a.atype = assignT)
      (getActionsM lightM c4st (some (mkState lightM (.leaf "green") 0))).1).2 = [] ∧
    (if ([] : List ActionObj).isEmpty then (mkState lightM (.leaf "green") 0).context else
      ([] : List ActionObj).foldl (fun cx a => a.assigner cx)
        (mkState lightM (.leaf "green") 0).context) = 0 ∧
    (List.partition isRaisedAct (([] : List ActionObj).flatMap (resolveOneAct 0))).1 = [] ∧
    (List.partition isRaisedAct (([] : List ActionObj).flatMap (resolveOneAct 0))).2 = [] ∧
    isTransientN lightM.root = false ∧
    c4st.configuration.any (fun p =>
      match mNodeAt lightM p with
      | some sn => isTransientN sn
      | none => false) = false ∧
    (∃ fin, resolveTransitionCoreM lightM (fun _ _ => .error .outOfFuel) c4st
        (some (mkState lightM (.leaf "green") 0)) (Event.mk "TIMER") lightM.context =
        .ok (fin, some ((mkState lightM (.leaf "green") 0).withHistory none)) ∧
      fin.value = mValue lightM c4st.configuration ∧ fin.actions = [] ∧
      (fin.changed = some true ↔
        ((Event.mk "TIMER").etype = updateT ∨ ([] : List ActionObj) ≠ [] ∨
          ([] : List ActionObj) ≠ [] ∨
          (mValue lightM c4st.configuration).isLeaf ≠
            (mkState lightM (.leaf "green") 0).value.isLeaf ∨
          ¬ svEqF lightM.bnd (mValue lightM c4st.configuration)
            (mkState lightM (.leaf "green") 0).value = true))) :=
  ⟨rfl, rfl, rfl, rfl, rfl, rfl, rfl, rfl, rfl,
    c4_changed_iff lightM (fun _ _ => .error .outOfFuel) c4st (mkState lightM (.leaf "green") 0)
      (Event.mk "TIMER") [] [] [] 0 rfl rfl rfl rfl rfl rfl rfl rfl rfl⟩

/-- Counterexample for C4 as stated: beepM fires its TIMER self-loop running
one custom action; the context is unchanged, no assign action exists anywhere
in the machine, and the value is structurally identical — yet changed is
true, because any non-raised emitted action sets the flag. -/
theorem c4_counterexample :
    ((transitionF beepM 5 (mkState beepM (.leaf "green") 0) (Event.mk "TIMER")).toOption.map
      (fun p => (p.1.changed, p.1.context, svEqF beepM.bnd p.1.value (.leaf "green"),
        p.1.actions.isEmpty))) = some (some true, 0, true, false) ∧
    (preOrderF beepM.bnd beepM.root []).all (fun p =>
      match mNodeAt beepM p with
      | some sn => sn.transitions.all (fun t =>
            t.actions.all (fun a => decide (a.atype ≠ assignT)))
          && sn.entryActs.all (fun a => decide (a.atype ≠ assignT))
          && sn.exitActs.all (fun a => decide (a.atype ≠ assignT))
      | none => true) = true := ⟨rfl, rfl⟩

/-- Normalizing each branch preserves the key list of a mapping value. -/
theorem svKeys_map (kvs : List (String × SV)) (g : SV → SV) :
    svKeys (kvs.map (fun kv => (kv.1, g kv.2))) = svKeys kvs := by
  simp [svKeys, List.map_map]

/-- Lookup commutes with per-branch normalization. -/
theorem svGet_map (kvs : List (String × SV)) (g : SV → SV) (k : String) :
    svGet (kvs.map (fun kv => (kv.1, g kv.2))) k = (svGet kvs k).map g := by
  induction kvs with
  | nil => rfl
  | cons kv rest ih =>
    by_cases h : kv.1 = k
    · simp [svGet, List.find?_cons_of_pos, h]
    · simp only [List.map_cons, svGet] at *
      rw [List.find?_cons_of_neg _ (by simpa using h), List.find?_cons_of_neg _ (by simpa using h)]
      exact ih

/-- C9 (corrected): the prefix relation on normalized state values implies
matchesState, but the converse direction of the claimed equivalence fails:
matchesState also accepts pairs in which the ancestor is not a prefix of the
value (see the counterexample, where a mapping ancestor matches a plain
string value that is one of its keys). -/
theorem c9_matches_of_prefix : ∀ (f : Nat) (a v : SV),
    svPrefixF f (normF f a) (normF f v) = true → matchesF f a v = true := by
  intro f
  induction f with
  | zero => intro a v h; exact absurd h (by simp [svPrefixF])
  | succ f ih =>
    intro a v h
    simp only [normF] at h
    simp only [matchesF]
    cases hp : toStateValueOld a with
    | leaf ps =>
      cases hc : toStateValueOld v with
      | leaf cs =>
        rw [hp, hc] at h
        simp only [svPrefixF, decide_eq_true_eq] at h
        simp [svPrefixF, h]
      | node ckvs =>
        rw [hp, hc] at h
        simp only [svPrefixF, svKeys_map] at h
        simpa using h
    | node pkvs =>
      cases hc : toStateValueOld v with
      | leaf cs =>
        rw [hp, hc] at h
        simp only [svPrefixF] at h
        exact absurd h (by simp)
      | node ckvs =>
        rw [hp, hc] at h
        simp only [svPrefixF, List.all_eq_true] at h ⊢
        intro kv hkv
        have h2 := h ⟨kv.1, normF f kv.2⟩ (List.mem_map.mpr ⟨kv, hkv, rfl⟩)
        simp only [svGet_map] at h2
        cases hg : svGet ckvs kv.1 with
        | none => rw [hg] at h2; simp at h2
        | some cv =>
          rw [hg] at h2
          simp only [Option.map_some'] at h2
          exact ih kv.2 cv h2

/-- Witness for C9: green is a prefix of {green: on} and matchesState agrees. -/
theorem c9_matches_of_prefix_witness :
    svPrefixF 3 (normF 3 (.leaf "green")) (normF 3 (.node [("green", .leaf "on")])) = true ∧
    matchesF 3 (.leaf "green") (.node [("green", .leaf "on")]) = true :=
  ⟨rfl, c9_matches_of_prefix 3 (.leaf "green") (.node [("green", .leaf "on")]) rfl⟩

/-- Counterexample for C9 as stated: the ancestor {foo: bar} is not a prefix
of the plain value foo, yet matchesState returns true, because a string child
value is tested for key membership in the parent mapping. -/
theorem c9_counterexample :
    matchesF 2 (.node [("foo", .leaf "bar")]) (.leaf "foo") = true ∧
    svPrefixF 2 (normF 2 (.node [("foo", .leaf "bar")])) (normF 2 (.leaf "foo")) = false :=
  ⟨rfl, rfl⟩

/-- Decides that a path descends through existing, non-history children with
every node along it (endpoints included) having children: under this the
history snapshot records the value branch exactly. -/
def hvWalkOk : Nat → SN → SPath → Bool
  | 0, _, _ => false
  | _ + 1, sn, [] => !sn.children.isEmpty
  | f + 1, sn, k :: rest =>
    !sn.children.isEmpty &&
      (match findChild sn k with
       | some ck => !(decide (ck.stype = .history)) && hvWalkOk f ck rest
       | none => false)

/-- Finding a key among getHistoryValue's child entries returns the entry
built from the first child with that key, provided that child is not a
history node (history children are filtered out). -/
theorem find_filterMap_hv (f : Nat) (v : SV) :
    ∀ (l : List (String × SN)) (k : String) (pr : String × SN),
      l.find? (fun kc => kc.1 = k) = some pr →
      ¬pr.2.stype = .history →
      (l.filterMap (fun kc =>
        if kc.2.stype = .history then none
        else some (kc.1,
          getHVF f kc.2 ((subValOf v kc.1).orElse (fun _ => initialStateValueF f kc.2))))).find?
          (fun ks => ks.1 = k)
        = some (pr.1,
            getHVF f pr.2 ((subValOf v pr.1).orElse (fun _ => initialStateValueF f pr.2))) := by
  intro l
  induction l with
  | nil => intro k pr h _; simp [List.find?] at h
  | cons kc rest ih =>
    intro k pr h hh
    by_cases hk : kc.1 = k
    · rw [List.find?_cons_of_pos _ (by simpa using hk)] at h
      injection h with h
      subst h
      rw [List.filterMap_cons, if_neg hh,
        List.find?_cons_of_pos _ (by simpa using hk)]
    · rw [List.find?_cons_of_neg _ (by simpa using hk)] at h
      rw [List.filterMap_cons]
      by_cases hc : kc.2.stype = NType.history
      · rw [if_pos hc]
        exact ih k pr h hh
      · rw [if_neg hc, List.find?_cons_of_neg _ (by simpa using hk)]
        exact ih k pr h hh

/-- The glue between recording and recall: navigating the history value
snapshot of v along a walkable path and reading its current value returns
exactly the branch of v at that path. -/
theorem navigate_getHVF : ∀ (f : Nat) (sn : SN) (pc : SPath) (v d : SV),
    valueBranch v pc = some d → hvWalkOk f sn pc = true →
    (getHVF f sn (some v)).bind (fun h => (navigateHV h pc).bind HistVal.current) = some d := by
  intro f
  induction f with
  | zero => intro sn pc v d _ hw; simp [hvWalkOk] at hw
  | succ f ih =>
    intro sn pc v d hbr hw
    cases pc with
    | nil =>
      simp only [hvWalkOk, Bool.not_eq_true', List.isEmpty_eq_false] at hw
      simp only [valueBranch, Option.some.injEq] at hbr
      subst hbr
      simp only [getHVF]
      rw [if_neg (by simpa [List.isEmpty_iff] using hw)]
      simp [navigateHV, HistVal.current]
    | cons k rest =>
      simp only [hvWalkOk, Bool.and_eq_true, Bool.not_eq_true'] at hw
      obtain ⟨hne, hrest⟩ := hw
      cases hfc : findChild sn k with
      | none => rw [hfc] at hrest; simp at hrest
      | some ck =>
        rw [hfc] at hrest
        simp only [Bool.and_eq_true, Bool.not_eq_true', decide_eq_false_iff_not] at hrest
        obtain ⟨hnh, hwk⟩ := hrest
        cases v with
        | leaf s => simp [valueBranch] at hbr
        | node kvs =>
          simp only [valueBranch] at hbr
          cases hg : svGet kvs k with
          | none => rw [hg] at hbr; simp at hbr
          | some vk =>
            rw [hg] at hbr
            simp only [getHVF]
            rw [if_neg (by simpa [List.isEmpty_iff] using hne)]
            simp only [Option.some_bind]
            have hfind : sn.children.find? (fun kc => kc.1 = k) = some (k, ck) := by
              simp only [findChild] at hfc
              cases hf2 : sn.children.find? (fun kc => kc.1 = k) with
              | none => rw [hf2] at hfc; simp at hfc
              | some pr =>
                rw [hf2] at hfc
                simp only [Option.map_some', Option.some.injEq] at hfc
                have hk1 : pr.1 = k := by
                  have := List.find?_some hf2
                  simpa using this
                cases pr
                simp_all
            have hff := find_filterMap_hv f (.node kvs) sn.children k (k, ck) hfind hnh
            simp only [navigateHV, HistVal.statesH, hff, Option.map_some']
            have hsub : subValOf (SV.node kvs) k = some vk := hg
            rw [hsub]
            have ho : (some vk : Option SV).orElse (fun _ => initialStateValueF f ck) = some vk :=
              rfl
            rw [ho]
            have hrec := ih ck rest vk d hbr hwk
            cases hgh : getHVF f ck (some vk) with
            | none => rw [hgh] at hrec; simp at hrec
            | some sub =>
              rw [hgh] at hrec
              simp only [Option.some_bind] at hrec
              exact hrec

/-- Decides that a relative path can be walked from a base node through
existing, non-history children (the success condition of
getFromRelativePath). -/
def fromRelOk (m : MachineM) : SPath → List String → Bool
  | _, [] => true
  | base, k :: rest =>
    match mNodeAt m base with
    | none => false
    | some sn =>
      match findChild sn k with
      | none => false
      | some c => !(decide (c.stype = .history)) && fromRelOk m (base ++ [k]) rest

/-- Extending a resolved path by an existing child resolves to that child. -/
theorem mNodeAt_step (m : MachineM) (base : SPath) (k : String) (sn c : SN)
    (hb : mNodeAt m base = some sn) (hc : findChild sn k = some c) :
    mNodeAt m (base ++ [k]) = some c := by
  simp only [mNodeAt] at *
  rw [nodeAt_append, hb]
  simp [nodeAt, hc]

/-- getFromRelativePath on a walkable relative path returns exactly the base
extended by the path, with fuel beyond the path length. -/
theorem fromRel_walk : ∀ (q : List String) (m : MachineM) (f : Nat) (base : SPath),
    fromRelOk m base q = true → q.length < f →
    histRun m f (.fromRel base q) = [base ++ q] := by
  intro q
  induction q with
  | nil =>
    intro m f base _ hf
    cases f with
    | zero => omega
    | succ f => simp [histRun]
  | cons k rest ih =>
    intro m f base hok hf
    cases f with
    | zero => omega
    | succ f =>
      simp only [fromRelOk] at hok
      cases hb : mNodeAt m base with
      | none =>
        rw [hb] at hok
        exact Bool.noConfusion hok
      | some sn =>
        rw [hb] at hok
        have hok2 : (match findChild sn k with
          | none => false
          | some c => !(decide (c.stype = NType.history)) &&
              fromRelOk m (base ++ [k]) rest) = true := hok
        cases hc : findChild sn k with
        | none =>
          rw [hc] at hok2
          exact Bool.noConfusion hok2
        | some c =>
          rw [hc] at hok2
          have hok3 : (!(decide (c.stype = NType.history)) &&
              fromRelOk m (base ++ [k]) rest) = true := hok2
          simp only [Bool.and_eq_true, Bool.not_eq_true', decide_eq_false_iff_not] at hok3
          obtain ⟨hnh, hrest⟩ := hok3
          simp only [histRun, hb, hc]
          rw [if_neg hnh]
          rw [ih m f (base ++ [k]) hrest (by simpa using Nat.lt_of_succ_lt_succ hf)]
          simp

/-- The first step of a walkable relative path exists as a node. -/
theorem fromRelOk_head (m : MachineM) (base : SPath) (k : String) (rest : List String)
    (h : fromRelOk m base (k :: rest) = true) :
    ∃ c, mNodeAt m (base ++ [k]) = some c := by
  simp only [fromRelOk] at h
  cases hb : mNodeAt m base with
  | none => rw [hb] at h; exact Bool.noConfusion h
  | some sn =>
    rw [hb] at h
    have h2 : (match findChild sn k with
      | none => false
      | some c => !(decide (c.stype = NType.history)) &&
          fromRelOk m (base ++ [k]) rest) = true := h
    cases hc : findChild sn k with
    | none => rw [hc] at h2; exact Bool.noConfusion h2
    | some c => exact ⟨c, mNodeAt_step m base k sn c hb hc⟩

/-- C6: when the machine's history snapshot of the pre-exit value v records
branch d at compound node C (pc), resolving a history child of C recalls it:
a deep-history target re-enters exactly d (every leaf path of d below pc),
a shallow-history target re-enters d's top-level keys only; and with no
recorded history, resolution falls back to the history node's declared
default target (walked from C) and otherwise to C's initial nodes. -/
theorem c6_history_recall (m : MachineM) (f : Nat) (pc : SPath) (kh : String)
    (v d : SV) (hsn : SN)
    (hnode : mNodeAt m (pc ++ [kh]) = some hsn)
    (hhist : hsn.stype = NType.history)
    (hbr : valueBranch v pc = some d)
    (hwalk : hvWalkOk m.bnd m.root pc = true)
    (hex : (toStatePathsF m.bnd d).all
      (fun q => fromRelOk m pc q && decide (q.length < f)) = true) :
    histRun m (f + 1) (.resolveH (pc ++ [kh]) (getHV m v)) =
      (toStatePathsF m.bnd d).flatMap (fun q =>
        if hsn.deepHist then [pc ++ q]
        else match q with
          | [] => []
          | k :: _ => [pc ++ [k]]) ∧
    histRun m (f + 1) (.resolveH (pc ++ [kh]) none) =
      (match hsn.histTarget with
       | some tv => (toStatePathsF m.bnd tv).flatMap (fun q => histRun m f (.fromRel pc q))
       | none => histRun m f (.initialNodes pc)) := by
  have hdrop : (pc ++ [kh]).dropLast = pc := by simp
  have hglue := navigate_getHVF m.bnd m.root pc v d hbr hwalk
  constructor
  · simp only [histRun, hnode, hdrop]
    rw [if_neg (not_not_intro hhist)]
    cases hgv : getHV m v with
    | none =>
      rw [show getHVF m.bnd m.root (some v) = none from hgv] at hglue
      simp at hglue
    | some h =>
      rw [show getHVF m.bnd m.root (some v) = some h from hgv] at hglue
      simp only [Option.some_bind] at hglue
      have hcur : (navigateHV h pc).bind (fun a => a.current) = some d := hglue
      simp only [hcur]
      obtain ⟨b, hbnd⟩ : ∃ b, m.bnd = b + 1 := by
        cases hb0 : m.bnd with
        | zero => rw [hb0] at hwalk; exact Bool.noConfusion hwalk
        | succ b => exact ⟨b, rfl⟩
      cases d with
      | leaf s =>
        rw [hbnd] at hex ⊢
        simp only [toStatePathsF] at hex ⊢
        simp only [List.all_cons, List.all_nil, Bool.and_true, Bool.and_eq_true,
          decide_eq_true_eq] at hex
        obtain ⟨hok, hlen⟩ := hex
        obtain ⟨c, hcn⟩ := fromRelOk_head m pc s [] hok
        simp only [hcn, List.flatMap_cons, List.flatMap_nil, List.append_nil]
        cases hdp : hsn.deepHist <;> simp
      | node kvs =>
        refine flatMap_congr_mem ?_
        intro q hq
        have hexq := (List.all_eq_true.mp hex) q hq
        simp only [Bool.and_eq_true, decide_eq_true_eq] at hexq
        obtain ⟨hok, hlen⟩ := hexq
        by_cases hdp : hsn.deepHist = true
        · rw [if_pos hdp, if_pos hdp]
          exact fromRel_walk q m f pc hok hlen
        · rw [if_neg hdp, if_neg hdp]
          cases q with
          | nil => rfl
          | cons k rest =>
            obtain ⟨c, hcn⟩ := fromRelOk_head m pc k rest hok
            simp [hcn]
  · simp only [histRun, hnode, hdrop]
    rw [if_neg (not_not_intro hhist)]

/-- A shallow-history pseudo-state node. -/
def histChild : SN := .mk .history none false none [] [] [] [] []

/-- A deep-history pseudo-state node. -/
def deepChild : SN := .mk .history none true none [] [] [] [] []

/-- A machine with a compound node A (children B with subtree X/Y, C, a
shallow-history child and a deep-history child) and an outside node F, used
to exercise history recall. -/
def histM : MachineM :=
  { key := "hm",
    root := compoundN "A" []
      [("A", compoundN "B" [tgo "OUT" ["F"]]
        [("B", compoundN "X" [] [("X", atomicN [tgo "ONE" ["A","B","Y"]]), ("Y", atomicN [])]),
         ("C", atomicN []),
         ("hist", histChild),
         ("dh", deepChild)]),
       ("F", atomicN [tgo "BACK" ["A","hist"]])],
    strict := false, context := 0, bnd := 6 }

/-- Witness for C6: with recorded descendant {B: Y} of A, the shallow
history child re-enters A.B (the top-level key), the deep history child
re-enters A.B.Y exactly, and with no record the shallow child falls back to
A's initial descent A.B.X. -/
theorem c6_history_recall_witness :
    mNodeAt histM (["A"] ++ ["hist"]) = some histChild ∧
    histChild.stype = NType.history ∧
    mNodeAt histM (["A"] ++ ["dh"]) = some deepChild ∧
    deepChild.stype = NType.history ∧
    valueBranch (.node [("A", .node [("B", .leaf "Y")])]) ["A"] =
      some (.node [("B", .leaf "Y")]) ∧
    hvWalkOk histM.bnd histM.root ["A"] = true ∧
    ((toStatePathsF histM.bnd (.node [("B", .leaf "Y")])).all
      (fun q => fromRelOk histM ["A"] q && decide (q.length < 9))) = true ∧
    histRun histM 10 (.resolveH (["A"] ++ ["hist"])
      (getHV histM (.node [("A", .node [("B", .leaf "Y")])]))) = [["A","B"]] ∧
    histRun histM 10 (.resolveH (["A"] ++ ["dh"])
      (getHV histM (.node [("A", .node [("B", .leaf "Y")])]))) = [["A","B","Y"]] ∧
    histRun histM 10 (.resolveH (["A"] ++ ["hist"]) none) = [["A","B","X"]] :=
  ⟨rfl, rfl, rfl, rfl, rfl, rfl, rfl,
    ((c6_history_recall histM 9 ["A"] "hist" (.node [("A", .node [("B", .leaf "Y")])])
      (.node [("B", .leaf "Y")]) histChild rfl rfl rfl rfl rfl).1).trans rfl,
    ((c6_history_recall histM 9 ["A"] "dh" (.node [("A", .node [("B", .leaf "Y")])])
      (.node [("B", .leaf "Y")]) deepChild rfl rfl rfl rfl rfl).1).trans rfl,
    ((c6_history_recall histM 9 ["A"] "hist" (.node [("A", .node [("B", .leaf "Y")])])
      (.node [("B", .leaf "Y")]) histChild rfl rfl rfl rfl rfl).2).trans rfl⟩
